import Mathlib

/-!
Verification development for the nx-conductor session-scheduling and
knowledge-accumulation engine.

The definitions below are a shallow embedding of the TypeScript sources:

* `SessionPool` (libs/nx-claude-sessions/src/utils/session-pool.ts):
  bounded-concurrency admission with a priority queue.
* `WorkingMemoryManager` (libs/nx-claude-sessions/src/utils/claude-integration.ts):
  per-project bounded working memory, narrative summarization, cleanup,
  and the filesystem-safe name transform.
* `McpIntegration.mergeContexts` / `prioritizeLibraryKnowledge`:
  hierarchical two-scope knowledge merge with project-level override.
* `FeatureOrchestrator.createDependencyAwarePhases` / `buildDependencyMap`:
  dependency-aware phase planning.

Modelling conventions, stated once:

* JavaScript `Map` objects are modelled as insertion-ordered association
  lists with unique keys (`Map.set` replaces in place, `Map.delete` removes
  the entry, `Map.size` is the list length).
* Timestamps (`Date.now()`, ISO strings) are modelled as natural-number
  milliseconds supplied explicitly by the caller of each operation.
* Session ids are built by the source as the string
  `library-counter-timestamp`; they are modelled as the triple of those
  components, whose rendering the source concatenates.  Distinct counter
  components make the rendered strings distinct.
* JS string truthiness (`s &&`) is modelled as the string being non-empty;
  an absent optional array is modelled as the empty list (the source only
  ever checks emptiness or iterates).
* The promise `resolve`/`reject` callbacks carried by queued tasks are
  control-flow plumbing with no effect on pool state; queue entries keep
  their data fields (library, task, context, priority).
* JS `Array.prototype.sort` is stable (ES2019); a stable sort is modelled
  by stable insertion sort, which computes the same list as every stable
  sort for a consistent comparator.
-/

namespace NxConductor

/-- Task complexity, from `TaskDescriptor.estimatedComplexity`. -/
inductive Complexity where
  | low
  | medium
  | high
deriving DecidableEq, Repr

/-- Task kind, from `TaskDescriptor.type`. -/
inductive TaskType where
  | feature
  | bugfix
  | refactor
  | test
  | documentation
deriving DecidableEq, Repr

/-- `TaskDescriptor` from the shared types module. -/
structure TaskDescriptor where
  type : TaskType
  description : String
  scope : List String
  priority : Int
  estimatedComplexity : Complexity
  crossLibraryDependencies : List String
deriving DecidableEq, Repr

/-- Session status; transitions pending → active → completed/failed. -/
inductive SessionStatus where
  | pending
  | active
  | completed
  | failed
deriving DecidableEq, Repr

/-- The components of the id string `library-counter-timestamp` that
`spawnSession` builds. -/
structure SessionId where
  library : String
  counter : Nat
  time : Nat
deriving DecidableEq, Repr

/-- `SessionInstance` as produced by `SessionPool.spawnSession`. -/
structure SessionInstance where
  id : SessionId
  library : String
  status : SessionStatus
  startTime : Nat
  endTime : Option Nat
  taskDescriptor : TaskDescriptor
  contextLoaded : String
deriving DecidableEq, Repr

/-- A queued request, `SessionTask` from session-pool.ts (minus the
resolve/reject callbacks, which carry no pool state). -/
structure SessionTask where
  library : String
  task : TaskDescriptor
  context : String
  priority : Int
deriving DecidableEq, Repr

/-- Insertion-ordered map `Map.get`. -/
def mapGet {κ β : Type} [DecidableEq κ] (m : List (κ × β)) (k : κ) : Option β :=
  match m.find? (fun p => p.1 == k) with
  | some p => some p.2
  | none => none

/-- Insertion-ordered map `Map.set`: replace in place if present, else append. -/
def mapSet {κ β : Type} [DecidableEq κ] (m : List (κ × β)) (k : κ) (v : β) : List (κ × β) :=
  if m.any (fun p => p.1 == k) then
    m.map (fun p => if p.1 == k then (k, v) else p)
  else
    m ++ [(k, v)]

/-- Insertion-ordered map `Map.delete`. -/
def mapDelete {κ β : Type} [DecidableEq κ] (m : List (κ × β)) (k : κ) : List (κ × β) :=
  m.filter (fun p => p.1 != k)

/-- Membership test `Map.has` / presence of a key. -/
def mapHas {κ β : Type} [DecidableEq κ] (m : List (κ × β)) (k : κ) : Bool :=
  m.any (fun p => p.1 == k)

/-- Pool state: the fields of the `SessionPool` class.  The
`claudeSessionsMap` mirrors `activeSessionsMap` key-for-key (both are set
at spawn and deleted together), so one map represents both. -/
structure PoolState where
  maxConcurrency : Nat
  active : List (SessionId × SessionInstance)
  queue : List SessionTask
  counter : Nat
deriving DecidableEq, Repr

/-- `SessionPool.hasAvailableSlot`. -/
def hasAvailableSlot (s : PoolState) : Bool :=
  s.active.length < s.maxConcurrency

/-- `SessionPool.calculatePriority`. -/
def calculatePriority (task : TaskDescriptor) : Int :=
  let p0 := task.priority
  let p1 := if task.crossLibraryDependencies.length > 0 then p0 + 10 else p0
  let p2 := if task.estimatedComplexity = Complexity.high then p1 + 5 else p1
  if task.type = TaskType.bugfix then p2 + 20 else p2

/-- Stable descending insertion: a task goes after every task of priority
greater than or equal to its own. -/
def insertDesc (t : SessionTask) : List SessionTask → List SessionTask
  | [] => [t]
  | x :: xs => if t.priority ≥ x.priority then t :: x :: xs else x :: insertDesc t xs

/-- Stable sort, descending by priority: the model of
`taskQueue.sort((a, b) => b.priority - a.priority)`. -/
def sortDesc : List SessionTask → List SessionTask
  | [] => []
  | x :: xs => insertDesc x (sortDesc xs)

/-- `SessionPool.queueTask`: push, then stable-sort descending by priority. -/
def queueTask (q : List SessionTask) (t : SessionTask) : List SessionTask :=
  sortDesc (q ++ [t])

/-- `SessionPool.spawnSession`, success path (the collaborator started the
subprocess).  `spawnSessionTry` below models both branches of the
try/catch; this is its `ok = true` restriction, kept separate because the
queue/limit logic is outcome-independent.  Returns the new instance and
the new state. -/
def spawnSession (s : PoolState) (library : String) (task : TaskDescriptor)
    (context : String) (now : Nat) : SessionInstance × PoolState :=
  let counter := s.counter + 1
  let sid : SessionId := ⟨library, counter, now⟩
  let session : SessionInstance :=
    { id := sid, library := library, status := SessionStatus.active
      startTime := now, endTime := none, taskDescriptor := task
      contextLoaded := context }
  (session, { s with counter := counter, active := mapSet s.active sid session })

/-- `SessionPool.requestSession`: start immediately when a slot is free,
otherwise score and enqueue. -/
def requestSession (s : PoolState) (library : String) (task : TaskDescriptor)
    (context : String) (now : Nat) : PoolState :=
  if hasAvailableSlot s then
    (spawnSession s library task context now).2
  else
    let priority := calculatePriority task
    { s with queue := queueTask s.queue ⟨library, task, context, priority⟩ }

/-- `SessionPool.processQueue`: if the queue is non-empty and a slot is
free, shift the head (highest priority) and spawn it. -/
def processQueue (s : PoolState) (now : Nat) : PoolState :=
  match s.queue with
  | [] => s
  | t :: rest =>
    if hasAvailableSlot s then
      (spawnSession { s with queue := rest } t.library t.task t.context now).2
    else s

/-- `SessionPool.handleSessionExit`: record final status and endTime on the
instance, free the slot, then promote from the queue.  Returns the new
state and the final instance record (the mutation observable through the
caller-held reference). -/
def handleSessionExit (s : PoolState) (sessionId : SessionId)
    (exitCode : Option Int) (now : Nat) : PoolState × Option SessionInstance :=
  match mapGet s.active sessionId with
  | none => (s, none)
  | some session =>
    let final : SessionInstance :=
      { session with
          endTime := some now
          status := if exitCode = some 0 then SessionStatus.completed else SessionStatus.failed }
    let s1 : PoolState := { s with active := mapDelete s.active sessionId }
    (processQueue s1 now, some final)

/-- `SessionPool.terminateSession`: NotFound error on an unknown or
inactive id (thrown before any mutation); otherwise mark completed, set
endTime, free the slot and promote from the queue. -/
def terminateSession (s : PoolState) (sessionId : SessionId) (now : Nat) :
    Except String (PoolState × SessionInstance) :=
  match mapGet s.active sessionId with
  | none => Except.error "session not found or not active"
  | some session =>
    let final : SessionInstance :=
      { session with status := SessionStatus.completed, endTime := some now }
    let s1 : PoolState := { s with active := mapDelete s.active sessionId }
    Except.ok (processQueue s1 now, final)

/-- State transition of `terminateSession`: a thrown NotFound leaves the
pool untouched. -/
def stepTerminate (s : PoolState) (sessionId : SessionId) (now : Nat) : PoolState :=
  match terminateSession s sessionId now with
  | Except.error _ => s
  | Except.ok (s1, _) => s1

/-- One externally-driven pool event: an incoming request, a subprocess
exit (natural completion or failure), or a forced termination. -/
inductive PoolOp where
  | request (library : String) (task : TaskDescriptor) (context : String) (now : Nat)
  | exit (sessionId : SessionId) (exitCode : Option Int) (now : Nat)
  | terminate (sessionId : SessionId) (now : Nat)
deriving DecidableEq, Repr

/-- Apply one pool event. -/
def stepPool (s : PoolState) : PoolOp → PoolState
  | PoolOp.request library task context now => requestSession s library task context now
  | PoolOp.exit sessionId exitCode now => (handleSessionExit s sessionId exitCode now).1
  | PoolOp.terminate sessionId now => stepTerminate s sessionId now

/-- Apply a sequence of pool events. -/
def runPool (s : PoolState) : List PoolOp → PoolState
  | [] => s
  | op :: ops => runPool (stepPool s op) ops

/-- A freshly constructed pool. -/
def initPool (maxConcurrency : Nat) : PoolState :=
  { maxConcurrency := maxConcurrency, active := [], queue := [], counter := 0 }

/-- Queue ordering maintained by `queueTask`: descending by priority. -/
def queueSortedDesc (q : List SessionTask) : Prop :=
  List.Pairwise (fun a b => b.priority ≤ a.priority) q

/-- Reachable-state invariant of the pool: active keys are distinct, key
counters never exceed the pool counter (so freshly minted ids are new), a
non-empty queue means the pool is full, the active count respects the
limit, and the queue is sorted descending. -/
def poolInv (s : PoolState) : Prop :=
  (s.active.map Prod.fst).Nodup ∧
  (∀ k ∈ s.active.map Prod.fst, k.counter ≤ s.counter) ∧
  (s.queue ≠ [] → s.active.length = s.maxConcurrency) ∧
  s.active.length ≤ s.maxConcurrency ∧
  queueSortedDesc s.queue

/-- Entry kind of a working-memory journal entry. -/
inductive EntryType where
  | todo
  | completed
  | blocked
  | question
  | decision
  | change
deriving DecidableEq, Repr

/-- `WorkingMemoryEntry`; the caller-supplied part plus the timestamp
stamped by `addEntry`. -/
structure WorkingMemoryEntry where
  timestamp : Nat
  sessionId : String
  type : EntryType
  content : String
deriving DecidableEq, Repr

/-- `SessionHandoff` (inert payload for the claims below). -/
structure SessionHandoff where
  sessionId : String
  library : String
  startTime : Nat
  endTime : Nat
  taskDescription : String
  completed : List String
  blocked : List String
  todos : List String
  questions : List String
  nextSteps : List String
  filesModified : List String
deriving DecidableEq, Repr

/-- `LibraryWorkingMemory`: per-project bounded working memory. -/
structure LibraryWorkingMemory where
  library : String
  lastUpdated : Nat
  currentTodos : List WorkingMemoryEntry
  recentChanges : List WorkingMemoryEntry
  openQuestions : List WorkingMemoryEntry
  blockedItems : List WorkingMemoryEntry
  recentHandoffs : List SessionHandoff
  currentContext : String
deriving DecidableEq, Repr

/-- `MAX_ENTRIES_PER_TYPE` from WorkingMemoryManager. -/
def MAX_ENTRIES_PER_TYPE : Nat := 20

/-- `MAX_HANDOFFS` from WorkingMemoryManager. -/
def MAX_HANDOFFS : Nat := 5

/-- `MAX_CONTEXT_LENGTH` from WorkingMemoryManager. -/
def MAX_CONTEXT_LENGTH : Nat := 5000

/-- `WorkingMemoryManager.addEntry`: timestamp the entry and route it by
kind.  The `completed` arm keeps a todo only when the todo reference and
its content are truthy (content non-empty) and the content differs from
the new entry's content, mirroring
`todo && todo.content && todo.content !== entry.content`. -/
def addEntry (memory : LibraryWorkingMemory) (sessionId : String)
    (etype : EntryType) (content : String) (now : Nat) : LibraryWorkingMemory :=
  let entry : WorkingMemoryEntry :=
    { timestamp := now, sessionId := sessionId, type := etype, content := content }
  let routed :=
    match etype with
    | EntryType.todo =>
      { memory with currentTodos := (entry :: memory.currentTodos).take MAX_ENTRIES_PER_TYPE }
    | EntryType.completed =>
      { memory with
          currentTodos :=
            memory.currentTodos.filter (fun todo => !(todo.content == "") && !(todo.content == content))
          recentChanges := (entry :: memory.recentChanges).take MAX_ENTRIES_PER_TYPE }
    | EntryType.blocked =>
      { memory with blockedItems := (entry :: memory.blockedItems).take MAX_ENTRIES_PER_TYPE }
    | EntryType.question =>
      { memory with openQuestions := (entry :: memory.openQuestions).take MAX_ENTRIES_PER_TYPE }
    | EntryType.change =>
      { memory with recentChanges := (entry :: memory.recentChanges).take MAX_ENTRIES_PER_TYPE }
    | EntryType.decision =>
      { memory with recentChanges := (entry :: memory.recentChanges).take MAX_ENTRIES_PER_TYPE }
  { routed with lastUpdated := now }

/-- `WorkingMemoryManager.cleanupOldEntries`: drop aged todos, changes and
questions; `blockedItems`, `recentHandoffs` and `currentContext` are not
touched by this pass.  The cutoff is `Date.now() - hoursOld * 3600000` and
an entry survives when its timestamp is strictly newer. -/
def cleanupOldEntries (memory : LibraryWorkingMemory) (hoursOld : Nat) (now : Nat) :
    LibraryWorkingMemory :=
  let cutoffTime : Int := (now : Int) - (hoursOld : Int) * 3600000
  { memory with
      currentTodos := memory.currentTodos.filter (fun todo => cutoffTime < (todo.timestamp : Int))
      recentChanges := memory.recentChanges.filter (fun change => cutoffTime < (change.timestamp : Int))
      openQuestions := memory.openQuestions.filter (fun question => cutoffTime < (question.timestamp : Int)) }

/-- JavaScript `\s` on the ASCII range (the sources only produce ASCII
whitespace). -/
def isJsSpace (c : Char) : Bool :=
  c = ' ' || c = '\t' || c = '\n' || c = '\r' || c = '\x0b' || c = '\x0c'

/-- Characters ending a key-point capture: the class `[.!?\n]`. -/
def isTermCh (c : Char) : Bool :=
  c = '.' || c = '!' || c = '?' || c = '\n'

/-- JavaScript `String.prototype.trim` on char lists. -/
def trimChars (cs : List Char) : List Char :=
  ((cs.dropWhile isJsSpace).reverse.dropWhile isJsSpace).reverse

/-- JavaScript `String.prototype.trim`. -/
def trimJs (s : String) : String :=
  String.mk (trimChars s.data)

/-- Case-insensitive literal match: consume `pat` (given lower-case) from
the head of the input, returning the remainder. -/
def matchLitCI : List Char → List Char → Option (List Char)
  | [], cs => some cs
  | _ :: _, [] => none
  | p :: ps, c :: cs => if c.toLower = p then matchLitCI ps cs else none

/-- The `\s*([^.!?\n]+)` tail of the key-point regexes, with the regex
engine's greedy-plus-backtracking semantics.  Returns the number of
characters the match consumes and the captured text after the prefix
strip performed by `replace` (empty when backtracking leaves only
whitespace for the body, because the replace pattern then swallows the
whole match). -/
def wsBody (cs : List Char) : Option (Nat × List Char) :=
  let w := cs.takeWhile isJsSpace
  let rest := cs.drop w.length
  match rest with
  | c :: _ =>
    if isTermCh c then
      let k := (w.reverse.takeWhile (fun d => d = '\n')).length
      if k = w.length then none else some (w.length - k, [])
    else
      let body := rest.takeWhile (fun d => !isTermCh d)
      some (w.length + body.length, body)
  | [] =>
    let k := (w.reverse.takeWhile (fun d => d = '\n')).length
    if k = w.length then none else some (w.length - k, [])

/-- Try `/completed:?\s*([^.!?\n]+)/i` at the head of the input.  Returns
the consumed length and the point left by
`replace(/completed:?\s*/i, '')` (before trimming). -/
def tryCompletedAt (cs : List Char) : Option (Nat × List Char) :=
  match matchLitCI "completed".data cs with
  | none => none
  | some r0 =>
    match r0 with
    | ':' :: r1 =>
      match wsBody r1 with
      | some (n, p) => some (10 + n, p)
      | none => some (10, [])
    | _ =>
      match wsBody r0 with
      | some (n, p) => some (9 + n, p)
      | none => none

/-- Try `/decided?\s*to\s*([^.!?\n]+)/i` at the head of the input.  Returns
the consumed length and the point left by
`replace(/decided?\s*to\s*/i, '')` (before trimming). -/
def tryDecidedAt (cs : List Char) : Option (Nat × List Char) :=
  match matchLitCI "decide".data cs with
  | none => none
  | some r0 =>
    let dTaken := match r0 with
      | c :: rest => if c.toLower = 'd' then (1, rest) else (0, r0)
      | [] => (0, r0)
    let r1 := dTaken.2
    let w := r1.takeWhile isJsSpace
    match matchLitCI "to".data (r1.drop w.length) with
    | none => none
    | some r2 =>
      match wsBody r2 with
      | some (n, p) => some (6 + dTaken.1 + w.length + 2 + n, p)
      | none => none

/-- Global scan of a pattern over the text, restarting after each match
(the `g` flag); `fuel` bounds the scan and `text.length` always
suffices since every match consumes at least one character. -/
def scanPattern (tryAt : List Char → Option (Nat × List Char)) :
    Nat → List Char → List (List Char)
  | 0, _ => []
  | _ + 1, [] => []
  | fuel + 1, c :: rest =>
    match tryAt (c :: rest) with
    | some (n, p) => p :: scanPattern tryAt fuel ((c :: rest).drop n)
    | none => scanPattern tryAt fuel rest

/-- `WorkingMemoryManager.extractKeyPoints`: up to two phrases following
"completed", up to two following "decided to", at most five total. -/
def extractKeyPoints (text : String) : List String :=
  let cs := text.data
  let completedMatches := scanPattern tryCompletedAt cs.length cs
  let decisionMatches := scanPattern tryDecidedAt cs.length cs
  let points :=
    (completedMatches.take 2).map (fun p => String.mk (trimChars p)) ++
    (decisionMatches.take 2).map (fun p => String.mk (trimChars p))
  points.take 5

/-- `WorkingMemoryManager.updateCurrentContext`: append, trim, keep
verbatim when within `MAX_CONTEXT_LENGTH`; otherwise keep the last three
blank-line-separated sections and fold everything earlier into a synthetic
summary. -/
def updateCurrentContext (current newContent : String) : String :=
  let combined := trimJs (current ++ "\n\n" ++ newContent)
  if combined.length ≤ MAX_CONTEXT_LENGTH then combined
  else
    let sections := combined.splitOn "\n\n"
    let recentSections := sections.drop (sections.length - 3)
    let olderSections := sections.take (sections.length - 3)
    let summary :=
      if olderSections.length > 0 then
        "[Previous Context Summary]\n" ++
        "- " ++ toString olderSections.length ++ " older sections summarized\n" ++
        "- Key points: " ++
          String.intercalate ", " (extractKeyPoints (String.intercalate " " olderSections)) ++
        "\n\n"
      else ""
    summary ++ String.intercalate "\n\n" recentSections

/-- `WorkingMemoryManager.sanitizeLibraryName`, step 2:
`replace(/^-+|-+$/g, '-')` strips leading and trailing dash runs. -/
def stripEdgeDashes (cs : List Char) : List Char :=
  ((cs.dropWhile (fun c => c = '-')).reverse.dropWhile (fun c => c = '-')).reverse

/-- `WorkingMemoryManager.sanitizeLibraryName`, step 3: the global
dash-run replace collapses every run of dashes to a single dash; the flag
records whether the previous kept character was a dash. -/
def collapseDashesGo : Bool → List Char → List Char
  | _, [] => []
  | prevDash, c :: rest =>
    if c = '-' then
      if prevDash then collapseDashesGo true rest
      else '-' :: collapseDashesGo true rest
    else c :: collapseDashesGo false rest

/-- `WorkingMemoryManager.sanitizeLibraryName`: map `@` and `/` to `-`,
strip edge dashes, collapse dash runs, lower-case (ASCII). -/
def sanitizeLibraryName (library : String) : String :=
  let step1 := library.data.map (fun c => if c = '@' || c = '/' then '-' else c)
  let step2 := stripEdgeDashes step1
  let step3 := collapseDashesGo false step2
  String.mk (step3.map Char.toLower)

/-- A decision or pattern record as seen by the hierarchical merge; the
merge only inspects `title`/`name`/`id` (absent fields are `none`) and
carries the rest of the record opaquely in `reasoning`. -/
structure KnowledgeItem where
  title : Option String
  name : Option String
  id : Option String
  reasoning : String
deriving DecidableEq, Repr

/-- JS truthiness of an optional string field. -/
def strTruthy (o : Option String) : Bool :=
  match o with
  | some s => !(s == "")
  | none => false

/-- The dedup key `item.title || item.name || item.id`: first truthy of
title and name, else the id value as-is. -/
def jsKey (it : KnowledgeItem) : Option String :=
  if strTruthy it.title then it.title
  else if strTruthy it.name then it.name
  else it.id

/-- The stateful `filter` over the reversed combined list: keep the first
occurrence of each key seen so far. -/
def filterSeen (seen : List (Option String)) : List KnowledgeItem → List KnowledgeItem
  | [] => []
  | x :: xs =>
    if seen.contains (jsKey x) then filterSeen seen xs
    else x :: filterSeen (jsKey x :: seen) xs

/-- `McpIntegration.prioritizeLibraryKnowledge`: concatenate workspace
then library, keep the last occurrence of each key, preserving positions
of the survivors. -/
def prioritizeLibraryKnowledge (workspaceItems libraryItems : List KnowledgeItem) :
    List KnowledgeItem :=
  let combined := workspaceItems ++ libraryItems
  (filterSeen [] combined.reverse).reverse

/-- One scope's collections as consumed by `mergeContexts` (session
history is carried through unchanged and not modelled). -/
structure ScopeContext where
  decisions : List KnowledgeItem
  patterns : List KnowledgeItem
deriving DecidableEq, Repr

/-- The merged hierarchical view produced by `McpIntegration.mergeContexts`
(the fields the merge computes from decisions and patterns). -/
structure MergedContext where
  library : String
  inheritedDecisions : List KnowledgeItem
  inheritedPatterns : List KnowledgeItem
  decisions : List KnowledgeItem
  patterns : List KnowledgeItem
deriving DecidableEq, Repr

/-- `McpIntegration.mergeContexts`, the decisions/patterns part:
`getHierarchicalContext` fetches both scopes and returns this merge. -/
def mergeContexts (workspaceContext libraryContext : ScopeContext) (library : String) :
    MergedContext :=
  { library := library
    inheritedDecisions := workspaceContext.decisions ++ libraryContext.decisions
    inheritedPatterns := workspaceContext.patterns ++ libraryContext.patterns
    decisions := prioritizeLibraryKnowledge workspaceContext.decisions libraryContext.decisions
    patterns := prioritizeLibraryKnowledge workspaceContext.patterns libraryContext.patterns }

/-- `OrchestrationPhase` as built by `createDependencyAwarePhases`. -/
structure OrchestrationPhase where
  phase : Nat
  libraries : List String
  parallelizable : Bool
  dependencies : List String
deriving DecidableEq, Repr

/-- `FeatureOrchestrator.buildDependencyMap`: restrict the project graph
to the candidate set (libraries outside the set have no entry, read back
as `[]`). -/
def buildDependencyMap (graph : String → List String) (libraries : List String) :
    String → List String :=
  fun lib =>
    if libraries.contains lib then (graph lib).filter (fun dep => libraries.contains dep)
    else []

/-- `Set.add` on the processed set. -/
def addToSet (processed : List String) (lib : String) : List String :=
  if processed.contains lib then processed else processed ++ [lib]

/-- The while-loop of `createDependencyAwarePhases`.  `fuel` bounds the
iteration count; `libraries.length` suffices exactly when the source loop
terminates (distinct candidates and `maxSessions ≥ 1` make every
iteration process at least one new project), and the source loop runs
forever otherwise. -/
def cdapGo (depMap : String → List String) (libraries : List String) (maxSessions : Nat) :
    Nat → List String → Nat → List OrchestrationPhase
  | 0, _, _ => []
  | fuel + 1, processed, phaseNumber =>
    if processed.length < libraries.length then
      let ready0 := libraries.filter (fun lib =>
        !processed.contains lib && (depMap lib).all (fun dep => processed.contains dep))
      let ready :=
        if ready0.isEmpty then
          (libraries.filter (fun lib => !processed.contains lib)).take maxSessions
        else ready0
      let current := ready.take maxSessions
      { phase := phaseNumber
        libraries := current
        parallelizable := decide (current.length > 1)
        dependencies := current.flatMap depMap } ::
      cdapGo depMap libraries maxSessions fuel (current.foldl addToSet processed) (phaseNumber + 1)
    else []

/-- `FeatureOrchestrator.createDependencyAwarePhases`. -/
def createDependencyAwarePhases (graph : String → List String) (libraries : List String)
    (maxSessions : Nat) : List OrchestrationPhase :=
  cdapGo (buildDependencyMap graph libraries) libraries maxSessions libraries.length [] 1

/-- Acyclicity of the in-set dependency relation, phrased for finite
graphs: every non-empty subset of the candidates has a member none of
whose in-set dependencies lie in the subset. -/
def depAcyclic (depMap : String → List String) (libraries : List String) : Prop :=
  ∀ S : List String, S ≠ [] → (∀ l ∈ S, l ∈ libraries) →
    ∃ l ∈ S, ∀ d ∈ depMap l, d ∉ S

/-- Stable placement of a new task in a descending queue: after every task
of priority greater than or equal to its own (equal scores keep arrival
order), before the first strictly smaller one.  `queueTask` on a sorted
queue computes exactly this. -/
def insertAfterGe (t : SessionTask) : List SessionTask → List SessionTask
  | [] => [t]
  | x :: xs => if x.priority ≥ t.priority then x :: insertAfterGe t xs else t :: x :: xs

/-- Fixture: the task occupying the single slot in the priority example. -/
def demoTaskBusy : TaskDescriptor :=
  ⟨TaskType.feature, "busy", [], 1, Complexity.medium, []⟩

/-- Fixture: base-priority-10 task with no score bonuses. -/
def demoTask10 : TaskDescriptor :=
  ⟨TaskType.feature, "t10", [], 10, Complexity.medium, []⟩

/-- Fixture: base-priority-90 task with no score bonuses. -/
def demoTask90 : TaskDescriptor :=
  ⟨TaskType.feature, "t90", [], 90, Complexity.medium, []⟩

/-- Fixture: base-priority-50 task with no score bonuses. -/
def demoTask50 : TaskDescriptor :=
  ⟨TaskType.feature, "t50", [], 50, Complexity.medium, []⟩

/-- Fixture: limit-1 pool whose slot is busy and whose queue then receives
requests of base priority 10, 90 and 50, in that arrival order. -/
def demoPoolQueued : PoolState :=
  requestSession
    (requestSession
      (requestSession
        (requestSession (initPool 1) "busy" demoTaskBusy "ctx" 0)
        "a" demoTask10 "ctx" 1)
      "b" demoTask90 "ctx" 2)
    "c" demoTask50 "ctx" 3

/-- Fixture: the pool after the busy session exits. -/
def demoPoolAfterFirstExit : PoolState :=
  (handleSessionExit demoPoolQueued ⟨"busy", 1, 0⟩ (some 0) 10).1

/-- Fixture: the pool after the session admitted next also exits. -/
def demoPoolAfterSecondExit : PoolState :=
  (handleSessionExit demoPoolAfterFirstExit ⟨"b", 2, 10⟩ (some 0) 20).1

/-- Fixture: a small pool with one active session, for witnesses. -/
def demoPoolOneActive : PoolState :=
  requestSession (initPool 1) "a" demoTask10 "ctx" 0

/-- Fixture: working memory holding one todo whose content is the empty
string. -/
def demoMemEmptyTodo : LibraryWorkingMemory :=
  { library := "lib", lastUpdated := 0
    currentTodos := [{ timestamp := 5, sessionId := "s", type := EntryType.todo, content := "" }]
    recentChanges := [], openQuestions := [], blockedItems := []
    recentHandoffs := [], currentContext := "" }

/-- Fixture: working memory holding one todo stamped exactly at the
cleanup cutoff instant, plus one aged blocked item. -/
def demoMemAtCutoff : LibraryWorkingMemory :=
  { library := "lib", lastUpdated := 0
    currentTodos := [{ timestamp := 3600000, sessionId := "s", type := EntryType.todo, content := "x" }]
    recentChanges := [], openQuestions := []
    blockedItems := [{ timestamp := 1, sessionId := "s", type := EntryType.blocked, content := "old" }]
    recentHandoffs := [], currentContext := "ctx" }

/-- Fixture: the dependency graph with B depending on A and C on B. -/
def demoGraph : String → List String :=
  fun l => if l = "B" then ["A"] else if l = "C" then ["B"] else []

/-- Fixture: a workspace-scoped decision titled Use X. -/
def demoWsDecision : KnowledgeItem :=
  { title := some "Use X", name := none, id := none, reasoning := "workspace reasoning" }

/-- Fixture: a project-scoped decision also titled Use X. -/
def demoProjDecision : KnowledgeItem :=
  { title := some "Use X", name := none, id := none, reasoning := "project reasoning" }

/-- `SessionPool.spawnSession`, both branches of the try/catch.  The
session id counter is incremented before the try, so it advances on
either outcome; on a collaborator start failure (`ok = false`) the local
instance is marked failed, the caller sees the thrown AdmissionFailure
error, and the active map is untouched — the request is never retried or
requeued. -/
def spawnSessionTry (s : PoolState) (library : String) (task : TaskDescriptor)
    (context : String) (now : Nat) (ok : Bool) :
    Except String SessionInstance × PoolState :=
  let counter := s.counter + 1
  let sid : SessionId := ⟨library, counter, now⟩
  if ok then
    let session : SessionInstance :=
      { id := sid, library := library, status := SessionStatus.active
        startTime := now, endTime := none, taskDescriptor := task
        contextLoaded := context }
    (Except.ok session,
      { s with counter := counter, active := mapSet s.active sid session })
  else
    (Except.error "failed to start session", { s with counter := counter })

/-- `SessionPool.requestSession` with the start outcome explicit: when a
slot is free the spawn is attempted (and a failure rejects the caller
without queueing); otherwise the request is scored and enqueued. -/
def requestSessionTry (s : PoolState) (library : String) (task : TaskDescriptor)
    (context : String) (now : Nat) (ok : Bool) : PoolState :=
  if hasAvailableSlot s then
    (spawnSessionTry s library task context now ok).2
  else
    let priority := calculatePriority task
    { s with queue := queueTask s.queue ⟨library, task, context, priority⟩ }

/-- `SessionPool.processQueue` with the start outcome explicit: the head
is shifted either way; on a failed start its reject callback fires and
`processQueue` is not re-entered, so the shifted request is lost and the
slot stays free. -/
def processQueueTry (s : PoolState) (now : Nat) (ok : Bool) : PoolState :=
  match s.queue with
  | [] => s
  | t :: rest =>
    if hasAvailableSlot s then
      (spawnSessionTry { s with queue := rest } t.library t.task t.context now ok).2
    else s

/-- `SessionPool.handleSessionExit` with the promotion outcome explicit. -/
def handleSessionExitTry (s : PoolState) (sessionId : SessionId)
    (exitCode : Option Int) (now : Nat) (ok : Bool) :
    PoolState × Option SessionInstance :=
  match mapGet s.active sessionId with
  | none => (s, none)
  | some session =>
    let final : SessionInstance :=
      { session with
          endTime := some now
          status := if exitCode = some 0 then SessionStatus.completed else SessionStatus.failed }
    let s1 : PoolState := { s with active := mapDelete s.active sessionId }
    (processQueueTry s1 now ok, some final)

/-- `SessionPool.terminateSession` state transition with the promotion
outcome explicit. -/
def stepTerminateTry (s : PoolState) (sessionId : SessionId) (now : Nat)
    (ok : Bool) : PoolState :=
  match mapGet s.active sessionId with
  | none => s
  | some _ =>
    processQueueTry { s with active := mapDelete s.active sessionId } now ok

/-- One pool event together with the outcome of any collaborator start it
triggers (`ok = false` is the AdmissionFailure branch). -/
inductive PoolOpT where
  | request (library : String) (task : TaskDescriptor) (context : String)
      (now : Nat) (ok : Bool)
  | exit (sessionId : SessionId) (exitCode : Option Int) (now : Nat) (ok : Bool)
  | terminate (sessionId : SessionId) (now : Nat) (ok : Bool)
deriving DecidableEq, Repr

/-- Apply one pool event with its start outcome. -/
def stepPoolT (s : PoolState) : PoolOpT → PoolState
  | PoolOpT.request library task context now ok =>
      requestSessionTry s library task context now ok
  | PoolOpT.exit sessionId exitCode now ok =>
      (handleSessionExitTry s sessionId exitCode now ok).1
  | PoolOpT.terminate sessionId now ok => stepTerminateTry s sessionId now ok

/-- Apply a sequence of pool events with their start outcomes. -/
def runPoolT (s : PoolState) : List PoolOpT → PoolState
  | [] => s
  | op :: ops => runPoolT (stepPoolT s op) ops

/-- Invariant of the outcome-explicit model: distinct active keys, key
counters bounded by the pool counter, active count within the limit, and
a descending-sorted queue.  Unlike `poolInv`, there is no
"non-empty queue implies full pool" clause: a failed promotion leaves a
free slot with requests still queued, so that clause is not an invariant
of the real program. -/
def poolInvT (s : PoolState) : Prop :=
  (s.active.map Prod.fst).Nodup ∧
  (∀ k ∈ s.active.map Prod.fst, k.counter ≤ s.counter) ∧
  s.active.length ≤ s.maxConcurrency ∧
  queueSortedDesc s.queue

/-- Fixture: on a limit-1 pool, start a session, queue two requests, then
exit the active session with a failing promotion spawn. -/
def demoOpsPromotionFailure : List PoolOpT :=
  [PoolOpT.request "busy" demoTaskBusy "ctx" 0 true,
   PoolOpT.request "a" demoTask10 "ctx" 1 true,
   PoolOpT.request "b" demoTask90 "ctx" 2 true,
   PoolOpT.exit ⟨"busy", 1, 0⟩ (some 0) 10 false]

theorem insertDesc_perm (t : SessionTask) (q : List SessionTask) :
    List.Perm (insertDesc t q) (t :: q) := by
  induction q with
  | nil => simp [insertDesc]
  | cons x xs ih =>
    by_cases h : t.priority ≥ x.priority
    · simp [insertDesc, h]
    · simp only [insertDesc, if_neg h]
      exact (ih.cons x).trans (List.Perm.swap t x xs)

theorem sortDesc_perm (q : List SessionTask) : List.Perm (sortDesc q) q := by
  induction q with
  | nil => simp [sortDesc]
  | cons x xs ih =>
    exact (insertDesc_perm x (sortDesc xs)).trans (ih.cons x)

theorem mem_insertDesc {a t : SessionTask} {q : List SessionTask} :
    a ∈ insertDesc t q ↔ a = t ∨ a ∈ q := by
  constructor
  · intro h
    have := (insertDesc_perm t q).mem_iff.mp h
    simpa using this
  · intro h
    apply (insertDesc_perm t q).mem_iff.mpr
    simpa using h

theorem insertDesc_sorted (t : SessionTask) (q : List SessionTask)
    (h : queueSortedDesc q) : queueSortedDesc (insertDesc t q) := by
  induction q with
  | nil => simp [insertDesc, queueSortedDesc]
  | cons x xs ih =>
    rcases List.pairwise_cons.mp h with ⟨hx, hxs⟩
    by_cases hp : t.priority ≥ x.priority
    · simp only [insertDesc, if_pos hp]
      refine List.pairwise_cons.mpr ⟨?_, h⟩
      intro b hb
      rcases List.mem_cons.mp hb with hb | hb
      · subst hb
        exact hp
      · exact le_trans (hx b hb) hp
    · simp only [insertDesc, if_neg hp]
      refine List.pairwise_cons.mpr ⟨?_, ih hxs⟩
      intro b hb
      rcases mem_insertDesc.mp hb with hb | hb
      · subst hb
        exact le_of_not_le hp
      · exact hx b hb

theorem sortDesc_sorted (q : List SessionTask) : queueSortedDesc (sortDesc q) := by
  induction q with
  | nil => exact List.Pairwise.nil
  | cons x xs ih => exact insertDesc_sorted x (sortDesc xs) ih

theorem queueTask_sorted (q : List SessionTask) (t : SessionTask) :
    queueSortedDesc (queueTask q t) :=
  sortDesc_sorted (q ++ [t])

theorem queueTask_perm (q : List SessionTask) (t : SessionTask) :
    List.Perm (queueTask q t) (q ++ [t]) :=
  sortDesc_perm (q ++ [t])

theorem insertAfterGe_of_all_lt {t : SessionTask} {q : List SessionTask}
    (h : ∀ a ∈ q, a.priority < t.priority) : insertAfterGe t q = t :: q := by
  cases q with
  | nil => rfl
  | cons x xs =>
    have hx : x.priority < t.priority := h x (List.mem_cons_self x xs)
    simp [insertAfterGe, not_le.mpr hx]

theorem insertDesc_of_all_le {x : SessionTask} {q : List SessionTask}
    (h : ∀ a ∈ q, a.priority ≤ x.priority) : insertDesc x q = x :: q := by
  cases q with
  | nil => rfl
  | cons y ys =>
    have hy : y.priority ≤ x.priority := h y (List.mem_cons_self y ys)
    simp [insertDesc, hy]

theorem queueTask_stable (q : List SessionTask) (t : SessionTask)
    (h : queueSortedDesc q) : queueTask q t = insertAfterGe t q := by
  induction q with
  | nil => rfl
  | cons x xs ih =>
    rcases List.pairwise_cons.mp h with ⟨hx, hxs⟩
    have step : queueTask (x :: xs) t = insertDesc x (queueTask xs t) := rfl
    rw [step, ih hxs]
    by_cases hp : x.priority ≥ t.priority
    · have hhead : ∀ a ∈ insertAfterGe t xs, a.priority ≤ x.priority := by
        intro a ha
        have : a ∈ queueTask xs t := by rw [ih hxs]; exact ha
        rcases (queueTask_perm xs t).mem_iff.mp this with hmem
        rcases List.mem_append.mp hmem with hmem | hmem
        · exact hx a hmem
        · have : a = t := by simpa using hmem
          subst this
          exact hp
      rw [insertDesc_of_all_le hhead]
      simp [insertAfterGe, hp]
    · have hlt : x.priority < t.priority := lt_of_not_le hp
      have hall : ∀ a ∈ xs, a.priority < t.priority := fun a ha =>
        lt_of_le_of_lt (hx a ha) hlt
      rw [insertAfterGe_of_all_lt hall]
      have : insertDesc x (t :: xs) = t :: insertDesc x xs := by
        simp [insertDesc, not_le.mpr hlt, le_of_lt hlt]
      rw [this, insertDesc_of_all_le hx]
      simp [insertAfterGe, not_le.mpr hlt]

theorem mapSet_of_not_has {κ β : Type} [DecidableEq κ] {m : List (κ × β)} {k : κ} (v : β)
    (h : mapHas m k = false) : mapSet m k v = m ++ [(k, v)] := by
  unfold mapHas at h
  unfold mapSet
  rw [if_neg]
  simp [h]

theorem length_mapSet_of_not_has {κ β : Type} [DecidableEq κ] {m : List (κ × β)} {k : κ}
    (v : β) (h : mapHas m k = false) : (mapSet m k v).length = m.length + 1 := by
  rw [mapSet_of_not_has v h]
  simp

theorem keys_mapSet_of_not_has {κ β : Type} [DecidableEq κ] {m : List (κ × β)} {k : κ}
    (v : β) (h : mapHas m k = false) :
    (mapSet m k v).map Prod.fst = m.map Prod.fst ++ [k] := by
  rw [mapSet_of_not_has v h]
  simp

theorem length_mapSet_le {κ β : Type} [DecidableEq κ] (m : List (κ × β)) (k : κ) (v : β) :
    (mapSet m k v).length ≤ m.length + 1 := by
  unfold mapSet
  split
  · simp
  · simp

theorem mapDelete_sublist {κ β : Type} [DecidableEq κ] (m : List (κ × β)) (k : κ) :
    List.Sublist (mapDelete m k) m :=
  List.filter_sublist m

theorem length_mapDelete_le {κ β : Type} [DecidableEq κ] (m : List (κ × β)) (k : κ) :
    (mapDelete m k).length ≤ m.length :=
  (mapDelete_sublist m k).length_le

theorem keys_mapDelete_sublist {κ β : Type} [DecidableEq κ] (m : List (κ × β)) (k : κ) :
    List.Sublist ((mapDelete m k).map Prod.fst) (m.map Prod.fst) :=
  (mapDelete_sublist m k).map Prod.fst

theorem mapDelete_of_not_has {κ β : Type} [DecidableEq κ] {m : List (κ × β)} {k : κ}
    (h : mapHas m k = false) : mapDelete m k = m := by
  unfold mapHas at h
  unfold mapDelete
  apply List.filter_eq_self.mpr
  intro p hp
  have : ¬(p.1 == k) = true := by
    intro hpk
    have : m.any (fun p => p.1 == k) = true := List.any_eq_true.mpr ⟨p, hp, hpk⟩
    rw [h] at this
    exact Bool.false_ne_true this
  simpa [bne] using this

theorem length_mapDelete_of_has {κ β : Type} [DecidableEq κ] {m : List (κ × β)} {k : κ}
    (hnd : (m.map Prod.fst).Nodup) (h : mapHas m k = true) :
    m.length = (mapDelete m k).length + 1 := by
  induction m with
  | nil => simp [mapHas] at h
  | cons p rest ih =>
    have hnd2 : p.1 ∉ rest.map Prod.fst ∧ (rest.map Prod.fst).Nodup :=
      List.nodup_cons.mp (by rw [List.map_cons] at hnd; exact hnd)
    by_cases hk : p.1 = k
    · have hnot : mapHas rest k = false := by
        unfold mapHas
        rw [List.any_eq_false]
        intro q hq hq2
        apply hnd2.1
        have hq1 : q.1 = k := by simpa using hq2
        rw [hk, ← hq1]
        exact List.mem_map.mpr ⟨q, hq, rfl⟩
      have hrest := mapDelete_of_not_has (m := rest) (k := k) hnot
      unfold mapDelete at hrest ⊢
      rw [List.filter_cons]
      have hcond : (p.1 != k) = false := by simp [bne, hk]
      rw [hcond]
      simp only [Bool.false_eq_true, if_false, hrest, List.length_cons]
    · have hhas : mapHas rest k = true := by
        unfold mapHas at h ⊢
        rcases List.any_eq_true.mp h with ⟨q, hq, hq2⟩
        rcases List.mem_cons.mp hq with hq | hq
        · exfalso
          apply hk
          rw [hq] at hq2
          simpa using hq2
        · exact List.any_eq_true.mpr ⟨q, hq, hq2⟩
      have hih := ih hnd2.2 hhas
      unfold mapDelete at hih ⊢
      rw [List.filter_cons]
      have hcond : (p.1 != k) = true := by simp [bne, hk]
      rw [hcond]
      simp only [if_true, List.length_cons, hih]

theorem mapHas_mapDelete {κ β : Type} [DecidableEq κ] (m : List (κ × β)) (k : κ) :
    mapHas (mapDelete m k) k = false := by
  unfold mapHas mapDelete
  rw [List.any_eq_false]
  intro p hp
  have := List.of_mem_filter hp
  simp [bne] at this
  simp [this]

theorem mapHas_iff_get {κ β : Type} [DecidableEq κ] (m : List (κ × β)) (k : κ) :
    mapHas m k = true ↔ ∃ v, mapGet m k = some v := by
  unfold mapHas mapGet
  constructor
  · intro h
    rcases List.any_eq_true.mp h with ⟨p, hp, hpk⟩
    rcases hfind : m.find? (fun q => q.1 == k) with _ | q
    · exact absurd hpk (List.find?_eq_none.mp hfind p hp)
    · exact ⟨q.2, by rw [hfind]⟩
  · intro hv
    rcases hv with ⟨v, hv⟩
    rcases hfind : m.find? (fun q => q.1 == k) with _ | q
    · rw [hfind] at hv
      simp at hv
    · have hq := List.find?_some hfind
      have hqm := List.mem_of_find?_eq_some hfind
      exact List.any_eq_true.mpr ⟨q, hqm, hq⟩

theorem mapHas_eq_keys_mem {κ β : Type} [DecidableEq κ] (m : List (κ × β)) (k : κ) :
    mapHas m k = true ↔ k ∈ m.map Prod.fst := by
  unfold mapHas
  rw [List.any_eq_true]
  constructor
  · intro ⟨p, hp, hpk⟩
    have : p.1 = k := by simpa using hpk
    rw [← this]
    exact List.mem_map.mpr ⟨p, hp, rfl⟩
  · intro h
    rcases List.mem_map.mp h with ⟨p, hp, hpk⟩
    exact ⟨p, hp, by simp [hpk]⟩

theorem counter_fresh {s : PoolState}
    (hc : ∀ k ∈ s.active.map Prod.fst, k.counter ≤ s.counter)
    (lib : String) (now : Nat) :
    mapHas s.active ⟨lib, s.counter + 1, now⟩ = false := by
  unfold mapHas
  rw [List.any_eq_false]
  intro p hp hbeq
  have hpk : p.1 = (⟨lib, s.counter + 1, now⟩ : SessionId) := by simpa using hbeq
  have hk := hc p.1 (List.mem_map.mpr ⟨p, hp, rfl⟩)
  rw [hpk] at hk
  simp at hk

theorem counter_fresh_delete {s : PoolState} (sid : SessionId)
    (hc : ∀ k ∈ s.active.map Prod.fst, k.counter ≤ s.counter)
    (lib : String) (now : Nat) :
    mapHas (mapDelete s.active sid) ⟨lib, s.counter + 1, now⟩ = false := by
  unfold mapHas
  rw [List.any_eq_false]
  intro p hp hbeq
  have hpm : p ∈ s.active := List.mem_of_mem_filter hp
  have hpk : p.1 = (⟨lib, s.counter + 1, now⟩ : SessionId) := by simpa using hbeq
  have hk := hc p.1 (List.mem_map.mpr ⟨p, hpm, rfl⟩)
  rw [hpk] at hk
  simp at hk

theorem requestSession_eq_of_slot (s : PoolState) (lib : String) (task : TaskDescriptor)
    (ctx : String) (now : Nat) (h : hasAvailableSlot s = true) :
    requestSession s lib task ctx now =
      { s with
          counter := s.counter + 1
          active := mapSet s.active ⟨lib, s.counter + 1, now⟩
            { id := ⟨lib, s.counter + 1, now⟩, library := lib
              status := SessionStatus.active, startTime := now, endTime := none
              taskDescriptor := task, contextLoaded := ctx } } := by
  unfold requestSession
  rw [if_pos h]
  rfl

theorem requestSession_eq_of_noslot (s : PoolState) (lib : String) (task : TaskDescriptor)
    (ctx : String) (now : Nat) (h : ¬hasAvailableSlot s = true) :
    requestSession s lib task ctx now =
      { s with queue := queueTask s.queue ⟨lib, task, ctx, calculatePriority task⟩ } := by
  unfold requestSession
  rw [if_neg h]

theorem processQueue_of_nil (s : PoolState) (now : Nat) (h : s.queue = []) :
    processQueue s now = s := by
  unfold processQueue
  rw [h]

theorem processQueue_of_cons_noslot (s : PoolState) (now : Nat) (t : SessionTask)
    (rest : List SessionTask) (h : s.queue = t :: rest)
    (hs : ¬hasAvailableSlot s = true) : processQueue s now = s := by
  unfold processQueue
  rw [h]
  simp only [if_neg hs]

theorem processQueue_of_cons (s : PoolState) (now : Nat) (t : SessionTask)
    (rest : List SessionTask) (h : s.queue = t :: rest)
    (hs : hasAvailableSlot s = true) :
    processQueue s now =
      (spawnSession { s with queue := rest } t.library t.task t.context now).2 := by
  unfold processQueue
  rw [h]
  simp only [hs, if_true]

theorem spawnSession_state_eq (s : PoolState) (lib : String) (task : TaskDescriptor)
    (ctx : String) (now : Nat) :
    (spawnSession s lib task ctx now).2 =
      { s with
          counter := s.counter + 1
          active := mapSet s.active ⟨lib, s.counter + 1, now⟩
            { id := ⟨lib, s.counter + 1, now⟩, library := lib
              status := SessionStatus.active, startTime := now, endTime := none
              taskDescriptor := task, contextLoaded := ctx } } := rfl

theorem poolInv_mk_spawn (mc : Nat) (m : List (SessionId × SessionInstance))
    (q : List SessionTask) (c : Nat) (lib : String) (sess : SessionInstance) (now : Nat)
    (hnd : (m.map Prod.fst).Nodup)
    (hc : ∀ k ∈ m.map Prod.fst, k.counter ≤ c)
    (hlt : m.length < mc)
    (hfill : q ≠ [] → m.length + 1 = mc)
    (hsort : queueSortedDesc q) :
    poolInv { maxConcurrency := mc, active := mapSet m ⟨lib, c + 1, now⟩ sess, queue := q
              counter := c + 1 } := by
  have hfresh : mapHas m ⟨lib, c + 1, now⟩ = false := by
    unfold mapHas
    rw [List.any_eq_false]
    intro p hp hbeq
    have hpk : p.1 = (⟨lib, c + 1, now⟩ : SessionId) := by simpa using hbeq
    have hk := hc p.1 (List.mem_map.mpr ⟨p, hp, rfl⟩)
    rw [hpk] at hk
    simp at hk
  refine ⟨?_, ?_, ?_, ?_, hsort⟩
  · show ((mapSet m _ _).map Prod.fst).Nodup
    rw [keys_mapSet_of_not_has _ hfresh, List.nodup_append]
    refine ⟨hnd, List.nodup_singleton _, ?_⟩
    intro k hk
    simp only [List.mem_singleton]
    intro hkk
    have := hc k hk
    rw [hkk] at this
    simp at this
  · intro k hk
    show k.counter ≤ c + 1
    rw [keys_mapSet_of_not_has _ hfresh] at hk
    rcases List.mem_append.mp hk with hk | hk
    · exact le_trans (hc k hk) (Nat.le_succ c)
    · have : k = (⟨lib, c + 1, now⟩ : SessionId) := by simpa using hk
      rw [this]
  · intro hne
    show (mapSet m _ _).length = mc
    rw [length_mapSet_of_not_has _ hfresh]
    exact hfill hne
  · show (mapSet m _ _).length ≤ mc
    rw [length_mapSet_of_not_has _ hfresh]
    omega

theorem poolInv_requestSession (s : PoolState) (lib : String) (task : TaskDescriptor)
    (ctx : String) (now : Nat) (h : poolInv s) :
    poolInv (requestSession s lib task ctx now) := by
  obtain ⟨hnd, hc, hfull, hle, hsort⟩ := h
  by_cases hs : hasAvailableSlot s = true
  · have hlt : s.active.length < s.maxConcurrency := by
      simpa [hasAvailableSlot] using hs
    rw [requestSession_eq_of_slot s lib task ctx now hs]
    exact poolInv_mk_spawn s.maxConcurrency s.active s.queue s.counter lib _ now
      hnd hc hlt (fun hne => absurd (hfull hne) (by omega)) hsort
  · rw [requestSession_eq_of_noslot s lib task ctx now hs]
    have hge : s.maxConcurrency ≤ s.active.length := by
      simp [hasAvailableSlot] at hs
      exact hs
    refine ⟨hnd, hc, ?_, hle, queueTask_sorted _ _⟩
    intro _
    show s.active.length = s.maxConcurrency
    omega

theorem poolInv_remove_process (s : PoolState) (sid : SessionId) (now : Nat)
    (h : poolInv s) (hmem : mapHas s.active sid = true) :
    poolInv (processQueue { s with active := mapDelete s.active sid } now) := by
  obtain ⟨hnd, hc, hfull, hle, hsort⟩ := h
  have hlen := length_mapDelete_of_has hnd hmem
  have hnd1 : ((mapDelete s.active sid).map Prod.fst).Nodup :=
    List.Nodup.sublist (keys_mapDelete_sublist s.active sid) hnd
  have hc1 : ∀ k ∈ (mapDelete s.active sid).map Prod.fst, k.counter ≤ s.counter := by
    intro k hk
    exact hc k ((keys_mapDelete_sublist s.active sid).mem hk)
  cases hq : s.queue with
  | nil =>
    rw [processQueue_of_nil _ now rfl]
    refine ⟨hnd1, hc1, ?_, le_trans (length_mapDelete_le _ _) hle, ?_⟩
    · intro hne
      exact absurd rfl hne
    · exact List.Pairwise.nil
  | cons t rest =>
    have hfull2 : s.active.length = s.maxConcurrency := hfull (by simp [hq])
    have hlt : (mapDelete s.active sid).length < s.maxConcurrency := by omega
    have hslot : hasAvailableSlot
        { maxConcurrency := s.maxConcurrency, active := mapDelete s.active sid
          queue := t :: rest, counter := s.counter } = true := by
      simp only [hasAvailableSlot]
      simpa using hlt
    rw [processQueue_of_cons
      { maxConcurrency := s.maxConcurrency, active := mapDelete s.active sid
        queue := t :: rest, counter := s.counter } now t rest rfl hslot]
    rw [spawnSession_state_eq]
    have hsort2 : queueSortedDesc rest := by
      have h2 := hsort
      rw [hq] at h2
      exact (List.pairwise_cons.mp h2).2
    exact poolInv_mk_spawn s.maxConcurrency (mapDelete s.active sid) rest s.counter
      t.library _ now hnd1 hc1 hlt (fun _ => by omega) hsort2

theorem poolInv_handleSessionExit (s : PoolState) (sid : SessionId) (code : Option Int)
    (now : Nat) (h : poolInv s) : poolInv (handleSessionExit s sid code now).1 := by
  unfold handleSessionExit
  cases hget : mapGet s.active sid with
  | none => exact h
  | some session =>
    have hmem : mapHas s.active sid = true := (mapHas_iff_get _ _).mpr ⟨session, hget⟩
    exact poolInv_remove_process s sid now h hmem

theorem poolInv_stepTerminate (s : PoolState) (sid : SessionId) (now : Nat)
    (h : poolInv s) : poolInv (stepTerminate s sid now) := by
  unfold stepTerminate terminateSession
  cases hget : mapGet s.active sid with
  | none => exact h
  | some session =>
    have hmem : mapHas s.active sid = true := (mapHas_iff_get _ _).mpr ⟨session, hget⟩
    exact poolInv_remove_process s sid now h hmem

theorem poolInv_stepPool (s : PoolState) (op : PoolOp) (h : poolInv s) :
    poolInv (stepPool s op) := by
  cases op with
  | request lib task ctx now => exact poolInv_requestSession s lib task ctx now h
  | exit sid code now => exact poolInv_handleSessionExit s sid code now h
  | terminate sid now => exact poolInv_stepTerminate s sid now h

theorem poolInv_runPool (s : PoolState) (ops : List PoolOp) (h : poolInv s) :
    poolInv (runPool s ops) := by
  induction ops generalizing s with
  | nil => exact h
  | cons op ops ih => exact ih _ (poolInv_stepPool s op h)

theorem poolInv_initPool (mc : Nat) : poolInv (initPool mc) := by
  refine ⟨?_, ?_, ?_, ?_, ?_⟩ <;> simp [initPool, queueSortedDesc]

theorem maxConcurrency_spawnSession (s : PoolState) (lib : String) (task : TaskDescriptor)
    (ctx : String) (now : Nat) :
    ((spawnSession s lib task ctx now).2).maxConcurrency = s.maxConcurrency := rfl

theorem maxConcurrency_processQueue (s : PoolState) (now : Nat) :
    (processQueue s now).maxConcurrency = s.maxConcurrency := by
  unfold processQueue
  split
  · rfl
  · split
    · rfl
    · rfl

theorem maxConcurrency_stepPool (s : PoolState) (op : PoolOp) :
    (stepPool s op).maxConcurrency = s.maxConcurrency := by
  cases op with
  | request lib task ctx now =>
    show (requestSession s lib task ctx now).maxConcurrency = s.maxConcurrency
    unfold requestSession
    split
    · rfl
    · rfl
  | exit sid code now =>
    show (handleSessionExit s sid code now).1.maxConcurrency = s.maxConcurrency
    unfold handleSessionExit
    cases mapGet s.active sid with
    | none => rfl
    | some session => exact maxConcurrency_processQueue _ now
  | terminate sid now =>
    show (stepTerminate s sid now).maxConcurrency = s.maxConcurrency
    unfold stepTerminate terminateSession
    cases mapGet s.active sid with
    | none => rfl
    | some session => exact maxConcurrency_processQueue _ now

theorem maxConcurrency_runPool (s : PoolState) (ops : List PoolOp) :
    (runPool s ops).maxConcurrency = s.maxConcurrency := by
  induction ops generalizing s with
  | nil => rfl
  | cons op ops ih => rw [runPool, ih, maxConcurrency_stepPool]

/-- C1: over every sequence of pool events starting from a fresh pool, the
active-session count never exceeds the configured concurrency limit, and a
request arriving while the limit is reached leaves the active set
untouched and is enqueued (the queue becomes the old queue plus the scored
request, re-sorted). -/
theorem pool_concurrency_bounded :
    (∀ (mc : Nat) (ops : List PoolOp), (runPool (initPool mc) ops).active.length ≤ mc) ∧
    (∀ (s : PoolState) (lib : String) (task : TaskDescriptor) (ctx : String) (now : Nat),
      s.maxConcurrency ≤ s.active.length →
      (requestSession s lib task ctx now).active = s.active ∧
      List.Perm (requestSession s lib task ctx now).queue
        (s.queue ++ [⟨lib, task, ctx, calculatePriority task⟩])) := by
  constructor
  · intro mc ops
    have h := (poolInv_runPool (initPool mc) ops (poolInv_initPool mc)).2.2.2.1
    have hm := maxConcurrency_runPool (initPool mc) ops
    rw [hm] at h
    exact h
  · intro s lib task ctx now hcap
    have hs : ¬hasAvailableSlot s = true := by
      simp only [hasAvailableSlot]
      simp
      omega
    rw [requestSession_eq_of_noslot s lib task ctx now hs]
    exact ⟨rfl, queueTask_perm _ _⟩

/-- Witness for C1: in a full limit-1 pool, a new request is enqueued and
the active set is unchanged. -/
theorem pool_concurrency_bounded_witness :
    (requestSession demoPoolOneActive "b" demoTask90 "ctx" 5).active =
        demoPoolOneActive.active ∧
    List.Perm (requestSession demoPoolOneActive "b" demoTask90 "ctx" 5).queue
      (demoPoolOneActive.queue ++ [⟨"b", demoTask90, "ctx", calculatePriority demoTask90⟩]) :=
  pool_concurrency_bounded.2 demoPoolOneActive "b" demoTask90 "ctx" 5 (by decide)

/-- C2: the priority score is the base priority plus 10 for non-empty
cross-library dependencies, plus 5 for high complexity, plus 20 for a
bug-fix; every reachable queue is sorted descending by score; on a sorted
queue, enqueueing places the new task after every task of greater or equal
score (equal scores keep arrival order); and in the limit-1 example with
base priorities 10, 90, 50 queued while the slot is busy, the next two
sessions to start carry the priority-90 task and then the priority-50
task. -/
theorem queue_priority_discipline :
    (∀ task : TaskDescriptor, calculatePriority task =
        task.priority + (if task.crossLibraryDependencies ≠ [] then 10 else 0) +
          (if task.estimatedComplexity = Complexity.high then 5 else 0) +
          (if task.type = TaskType.bugfix then 20 else 0)) ∧
    (∀ (mc : Nat) (ops : List PoolOp), queueSortedDesc (runPool (initPool mc) ops).queue) ∧
    (∀ (q : List SessionTask) (t : SessionTask), queueSortedDesc q →
        queueTask q t = insertAfterGe t q) ∧
    (demoPoolQueued.queue.map SessionTask.priority = [90, 50, 10] ∧
      demoPoolAfterFirstExit.active.map (fun p => p.2.taskDescriptor) = [demoTask90] ∧
      demoPoolAfterSecondExit.active.map (fun p => p.2.taskDescriptor) = [demoTask50]) := by
  refine ⟨?_, ?_, ?_, by decide, by decide, by decide⟩
  · intro task
    unfold calculatePriority
    have hiff : (task.crossLibraryDependencies.length > 0) ↔
        task.crossLibraryDependencies ≠ [] := by
      simp [List.length_pos]
    simp only [hiff]
    split_ifs <;> omega
  · intro mc ops
    exact (poolInv_runPool (initPool mc) ops (poolInv_initPool mc)).2.2.2.2
  · intro q t h
    exact queueTask_stable q t h

/-- Witness for C2: enqueueing a task whose score ties the queued one
places it after the earlier arrival. -/
theorem queue_priority_discipline_witness :
    queueTask [⟨"x", demoTask90, "c", 90⟩] ⟨"y", demoTask90, "c", 90⟩ =
      insertAfterGe ⟨"y", demoTask90, "c", 90⟩ [⟨"x", demoTask90, "c", 90⟩] :=
  queue_priority_discipline.2.2.1 [⟨"x", demoTask90, "c", 90⟩] ⟨"y", demoTask90, "c", 90⟩
    (by simp [queueSortedDesc])

theorem mapGet_eq_none_of_not_has {κ β : Type} [DecidableEq κ] {m : List (κ × β)} {k : κ}
    (h : mapHas m k = false) : mapGet m k = none := by
  rcases hget : mapGet m k with _ | v
  · rfl
  · exact absurd ((mapHas_iff_get m k).mpr ⟨v, hget⟩) (by simp [h])

theorem mapHas_mapSet_fresh {κ β : Type} [DecidableEq κ] {m : List (κ × β)} {k k2 : κ}
    (v : β) (hfresh : mapHas m k = false) (hne : k2 ≠ k) (hm : mapHas m k2 = false) :
    mapHas (mapSet m k v) k2 = false := by
  rw [mapSet_of_not_has v hfresh]
  unfold mapHas at hm ⊢
  rw [List.any_eq_false] at hm ⊢
  intro p hp
  rcases List.mem_append.mp hp with hp | hp
  · exact hm p hp
  · have hpv : p = (k, v) := by simpa using hp
    subst hpv
    intro hbeq
    have hkk : k = k2 := by simpa using hbeq
    exact hne hkk.symm

theorem mapHas_after_remove_process (s : PoolState) (sid : SessionId) (now : Nat)
    (hc : ∀ k ∈ s.active.map Prod.fst, k.counter ≤ s.counter)
    (hsidc : sid.counter ≤ s.counter) :
    mapHas (processQueue { s with active := mapDelete s.active sid } now).active sid
      = false := by
  cases hq : s.queue with
  | nil =>
    rw [processQueue_of_nil
      { maxConcurrency := s.maxConcurrency, active := mapDelete s.active sid
        queue := [], counter := s.counter } now rfl]
    exact mapHas_mapDelete _ _
  | cons t rest =>
    by_cases hslot : hasAvailableSlot
        { maxConcurrency := s.maxConcurrency, active := mapDelete s.active sid
          queue := t :: rest, counter := s.counter } = true
    · rw [processQueue_of_cons
        { maxConcurrency := s.maxConcurrency, active := mapDelete s.active sid
          queue := t :: rest, counter := s.counter } now t rest rfl hslot,
        spawnSession_state_eq]
      show mapHas (mapSet (mapDelete s.active sid) ⟨t.library, s.counter + 1, now⟩ _) sid
          = false
      refine mapHas_mapSet_fresh _ (counter_fresh_delete sid hc t.library now) ?_
        (mapHas_mapDelete _ _)
      intro heq
      have : sid.counter = s.counter + 1 := by rw [heq]
      omega
    · rw [processQueue_of_cons_noslot
        { maxConcurrency := s.maxConcurrency, active := mapDelete s.active sid
          queue := t :: rest, counter := s.counter } now t rest rfl hslot]
      exact mapHas_mapDelete _ _

theorem processQueueTry_of_nil (s : PoolState) (now : Nat) (ok : Bool)
    (h : s.queue = []) : processQueueTry s now ok = s := by
  unfold processQueueTry
  rw [h]

theorem processQueueTry_of_cons (s : PoolState) (now : Nat) (ok : Bool) (t : SessionTask)
    (rest : List SessionTask) (h : s.queue = t :: rest)
    (hs : hasAvailableSlot s = true) :
    processQueueTry s now ok =
      (spawnSessionTry { s with queue := rest } t.library t.task t.context now ok).2 := by
  unfold processQueueTry
  rw [h]
  simp only [hs, if_true]

theorem processQueueTry_of_cons_noslot (s : PoolState) (now : Nat) (ok : Bool)
    (t : SessionTask) (rest : List SessionTask) (h : s.queue = t :: rest)
    (hs : ¬hasAvailableSlot s = true) : processQueueTry s now ok = s := by
  unfold processQueueTry
  rw [h]
  simp only [if_neg hs]

theorem spawnSessionTry_true_state (s : PoolState) (lib : String) (task : TaskDescriptor)
    (ctx : String) (now : Nat) :
    (spawnSessionTry s lib task ctx now true).2 = (spawnSession s lib task ctx now).2 := rfl

theorem spawnSessionTry_false_state (s : PoolState) (lib : String) (task : TaskDescriptor)
    (ctx : String) (now : Nat) :
    (spawnSessionTry s lib task ctx now false).2 = { s with counter := s.counter + 1 } := rfl

theorem processQueueTry_true (s : PoolState) (now : Nat) :
    processQueueTry s now true = processQueue s now := by
  cases s with
  | mk mc act q c =>
    cases q with
    | nil => rfl
    | cons t rest =>
      by_cases h : hasAvailableSlot ⟨mc, act, t :: rest, c⟩ = true
      · rw [processQueueTry_of_cons ⟨mc, act, t :: rest, c⟩ now true t rest rfl h,
          processQueue_of_cons ⟨mc, act, t :: rest, c⟩ now t rest rfl h]
        rfl
      · rw [processQueueTry_of_cons_noslot ⟨mc, act, t :: rest, c⟩ now true t rest rfl h,
          processQueue_of_cons_noslot ⟨mc, act, t :: rest, c⟩ now t rest rfl h]

theorem requestSessionTry_true (s : PoolState) (lib : String) (task : TaskDescriptor)
    (ctx : String) (now : Nat) :
    requestSessionTry s lib task ctx now true = requestSession s lib task ctx now := by
  unfold requestSessionTry requestSession
  split
  · rfl
  · rfl

theorem handleSessionExitTry_true (s : PoolState) (sid : SessionId) (code : Option Int)
    (now : Nat) :
    handleSessionExitTry s sid code now true = handleSessionExit s sid code now := by
  unfold handleSessionExitTry handleSessionExit
  cases mapGet s.active sid with
  | none => rfl
  | some v =>
    show (processQueueTry { s with active := mapDelete s.active sid } now true,
        some { v with
                endTime := some now
                status :=
                  if code = some 0 then SessionStatus.completed
                  else SessionStatus.failed }) =
      (processQueue { s with active := mapDelete s.active sid } now,
        some { v with
                endTime := some now
                status :=
                  if code = some 0 then SessionStatus.completed
                  else SessionStatus.failed })
    rw [processQueueTry_true]

theorem mapHas_after_remove_processTry (s : PoolState) (sid : SessionId) (now : Nat)
    (ok : Bool)
    (hc : ∀ k ∈ s.active.map Prod.fst, k.counter ≤ s.counter)
    (hsidc : sid.counter ≤ s.counter) :
    mapHas (processQueueTry { s with active := mapDelete s.active sid } now ok).active sid
      = false := by
  cases hq : s.queue with
  | nil =>
    rw [processQueueTry_of_nil
      { maxConcurrency := s.maxConcurrency, active := mapDelete s.active sid
        queue := [], counter := s.counter } now ok rfl]
    exact mapHas_mapDelete _ _
  | cons t rest =>
    by_cases hslot : hasAvailableSlot
        { maxConcurrency := s.maxConcurrency, active := mapDelete s.active sid
          queue := t :: rest, counter := s.counter } = true
    · rw [processQueueTry_of_cons
        { maxConcurrency := s.maxConcurrency, active := mapDelete s.active sid
          queue := t :: rest, counter := s.counter } now ok t rest rfl hslot]
      cases ok with
      | true =>
        rw [spawnSessionTry_true_state, spawnSession_state_eq]
        show mapHas (mapSet (mapDelete s.active sid) ⟨t.library, s.counter + 1, now⟩ _) sid
            = false
        refine mapHas_mapSet_fresh _ (counter_fresh_delete sid hc t.library now) ?_
          (mapHas_mapDelete _ _)
        intro heq
        have : sid.counter = s.counter + 1 := by rw [heq]
        omega
      | false =>
        rw [spawnSessionTry_false_state]
        exact mapHas_mapDelete _ _
    · rw [processQueueTry_of_cons_noslot
        { maxConcurrency := s.maxConcurrency, active := mapDelete s.active sid
          queue := t :: rest, counter := s.counter } now ok t rest rfl hslot]
      exact mapHas_mapDelete _ _

theorem poolInvT_mk_spawn (mc : Nat) (m : List (SessionId × SessionInstance))
    (q : List SessionTask) (c : Nat) (lib : String) (sess : SessionInstance) (now : Nat)
    (hnd : (m.map Prod.fst).Nodup)
    (hc : ∀ k ∈ m.map Prod.fst, k.counter ≤ c)
    (hlt : m.length < mc)
    (hsort : queueSortedDesc q) :
    poolInvT { maxConcurrency := mc, active := mapSet m ⟨lib, c + 1, now⟩ sess, queue := q
               counter := c + 1 } := by
  have hfresh : mapHas m ⟨lib, c + 1, now⟩ = false := by
    unfold mapHas
    rw [List.any_eq_false]
    intro p hp hbeq
    have hpk : p.1 = (⟨lib, c + 1, now⟩ : SessionId) := by simpa using hbeq
    have hk := hc p.1 (List.mem_map.mpr ⟨p, hp, rfl⟩)
    rw [hpk] at hk
    simp at hk
  refine ⟨?_, ?_, ?_, hsort⟩
  · show ((mapSet m _ _).map Prod.fst).Nodup
    rw [keys_mapSet_of_not_has _ hfresh, List.nodup_append]
    refine ⟨hnd, List.nodup_singleton _, ?_⟩
    intro k hk
    simp only [List.mem_singleton]
    intro hkk
    have := hc k hk
    rw [hkk] at this
    simp at this
  · intro k hk
    show k.counter ≤ c + 1
    rw [keys_mapSet_of_not_has _ hfresh] at hk
    rcases List.mem_append.mp hk with hk | hk
    · exact le_trans (hc k hk) (Nat.le_succ c)
    · have : k = (⟨lib, c + 1, now⟩ : SessionId) := by simpa using hk
      rw [this]
  · show (mapSet m _ _).length ≤ mc
    rw [length_mapSet_of_not_has _ hfresh]
    omega

theorem poolInvT_requestSessionTry (s : PoolState) (lib : String) (task : TaskDescriptor)
    (ctx : String) (now : Nat) (ok : Bool) (h : poolInvT s) :
    poolInvT (requestSessionTry s lib task ctx now ok) := by
  obtain ⟨hnd, hc, hle, hsort⟩ := h
  by_cases hs : hasAvailableSlot s = true
  · have hlt : s.active.length < s.maxConcurrency := by
      simpa [hasAvailableSlot] using hs
    unfold requestSessionTry
    rw [if_pos hs]
    cases ok with
    | true =>
      rw [spawnSessionTry_true_state, spawnSession_state_eq]
      exact poolInvT_mk_spawn s.maxConcurrency s.active s.queue s.counter lib _ now
        hnd hc hlt hsort
    | false =>
      rw [spawnSessionTry_false_state]
      exact ⟨hnd, fun k hk => le_trans (hc k hk) (Nat.le_succ _), hle, hsort⟩
  · unfold requestSessionTry
    rw [if_neg hs]
    exact ⟨hnd, hc, hle, queueTask_sorted _ _⟩

theorem poolInvT_remove_processTry (s : PoolState) (sid : SessionId) (now : Nat)
    (ok : Bool) (h : poolInvT s) (hmem : mapHas s.active sid = true) :
    poolInvT (processQueueTry { s with active := mapDelete s.active sid } now ok) := by
  obtain ⟨hnd, hc, hle, hsort⟩ := h
  have hlen := length_mapDelete_of_has hnd hmem
  have hnd1 : ((mapDelete s.active sid).map Prod.fst).Nodup :=
    List.Nodup.sublist (keys_mapDelete_sublist s.active sid) hnd
  have hc1 : ∀ k ∈ (mapDelete s.active sid).map Prod.fst, k.counter ≤ s.counter :=
    fun k hk => hc k ((keys_mapDelete_sublist s.active sid).mem hk)
  have hlt : (mapDelete s.active sid).length < s.maxConcurrency := by omega
  cases hq : s.queue with
  | nil =>
    rw [processQueueTry_of_nil
      { maxConcurrency := s.maxConcurrency, active := mapDelete s.active sid
        queue := [], counter := s.counter } now ok rfl]
    refine ⟨hnd1, hc1, ?_, List.Pairwise.nil⟩
    show (mapDelete s.active sid).length ≤ s.maxConcurrency
    omega
  | cons t rest =>
    have hslot : hasAvailableSlot
        { maxConcurrency := s.maxConcurrency, active := mapDelete s.active sid
          queue := t :: rest, counter := s.counter } = true := by
      simp only [hasAvailableSlot, decide_eq_true_eq]
      omega
    have hsort2 : queueSortedDesc rest := by
      have h2 := hsort
      rw [hq] at h2
      exact (List.pairwise_cons.mp h2).2
    rw [processQueueTry_of_cons
      { maxConcurrency := s.maxConcurrency, active := mapDelete s.active sid
        queue := t :: rest, counter := s.counter } now ok t rest rfl hslot]
    cases ok with
    | true =>
      rw [spawnSessionTry_true_state, spawnSession_state_eq]
      exact poolInvT_mk_spawn s.maxConcurrency (mapDelete s.active sid) rest s.counter
        t.library _ now hnd1 hc1 hlt hsort2
    | false =>
      rw [spawnSessionTry_false_state]
      refine ⟨hnd1, fun k hk => le_trans (hc1 k hk) (Nat.le_succ _), ?_, hsort2⟩
      show (mapDelete s.active sid).length ≤ s.maxConcurrency
      omega

theorem poolInvT_stepPoolT (s : PoolState) (op : PoolOpT) (h : poolInvT s) :
    poolInvT (stepPoolT s op) := by
  cases op with
  | request lib task ctx now ok => exact poolInvT_requestSessionTry s lib task ctx now ok h
  | exit sid code now ok =>
    show poolInvT (handleSessionExitTry s sid code now ok).1
    unfold handleSessionExitTry
    cases hget : mapGet s.active sid with
    | none => exact h
    | some v =>
      exact poolInvT_remove_processTry s sid now ok h ((mapHas_iff_get _ _).mpr ⟨v, hget⟩)
  | terminate sid now ok =>
    show poolInvT (stepTerminateTry s sid now ok)
    unfold stepTerminateTry
    cases hget : mapGet s.active sid with
    | none => exact h
    | some v =>
      exact poolInvT_remove_processTry s sid now ok h ((mapHas_iff_get _ _).mpr ⟨v, hget⟩)

theorem poolInvT_runPoolT (s : PoolState) (ops : List PoolOpT) (h : poolInvT s) :
    poolInvT (runPoolT s ops) := by
  induction ops generalizing s with
  | nil => exact h
  | cons op ops ih => exact ih _ (poolInvT_stepPoolT s op h)

theorem poolInvT_initPool (mc : Nat) : poolInvT (initPool mc) := by
  refine ⟨?_, ?_, ?_, ?_⟩ <;> simp [initPool, queueSortedDesc]

/-- Counterexample for C3: a reachable run of the outcome-explicit pool
(one session started on a limit-1 pool, two requests queued, then the
active session exits and the promotion spawn fails) ends a termination
with a free slot while a request is still queued — the source rejects the
shifted request and never re-enters the queue processing, refuting the
claim that after any termination no slot stays free while a request is
queued. -/
theorem exit_promotion_failure_counterexample :
    hasAvailableSlot (runPoolT (initPool 1) demoOpsPromotionFailure) = true ∧
    (runPoolT (initPool 1) demoOpsPromotionFailure).queue ≠ [] := by
  constructor
  · decide
  · decide

/-- C3 (amended): when an active session exits (any exit code), the final
status (completed on exit code 0, failed otherwise) and the end time are
recorded on the instance, and its slot is freed.  With an empty queue
nothing else happens.  With a non-empty queue exactly one admission is
attempted: the head of the sorted queue — the highest-priority pending
request — is shifted; if the collaborator start succeeds the request is
started and (when the pool was full) no slot stays free while a request
is queued, but if the start fails the shifted request is rejected and
dropped, not requeued, and the slot stays free even though requests may
still be queued. -/
theorem exit_frees_and_promotes_once :
    ∀ (s : PoolState) (sid : SessionId) (code : Option Int) (now : Nat) (ok : Bool),
      poolInvT s → mapHas s.active sid = true →
      ((∃ inst, (handleSessionExitTry s sid code now ok).2 = some inst ∧
          inst.status =
            (if code = some 0 then SessionStatus.completed else SessionStatus.failed) ∧
          inst.endTime = some now) ∧
        mapHas (handleSessionExitTry s sid code now ok).1.active sid = false ∧
        (s.queue = [] →
          (handleSessionExitTry s sid code now ok).1 =
            { s with active := mapDelete s.active sid }) ∧
        (∀ t rest, s.queue = t :: rest →
          (handleSessionExitTry s sid code now ok).1.queue = rest ∧
          (∀ u ∈ s.queue, u.priority ≤ t.priority) ∧
          (ok = true →
            (∃ p ∈ (handleSessionExitTry s sid code now ok).1.active,
              p.2.taskDescriptor = t.task ∧ p.2.library = t.library) ∧
            (s.active.length = s.maxConcurrency →
              ¬(hasAvailableSlot (handleSessionExitTry s sid code now ok).1 = true ∧
                (handleSessionExitTry s sid code now ok).1.queue ≠ []))) ∧
          (ok = false →
            (handleSessionExitTry s sid code now ok).1 =
              { s with active := mapDelete s.active sid, queue := rest
                       counter := s.counter + 1 } ∧
            hasAvailableSlot (handleSessionExitTry s sid code now ok).1 = true))) := by
  intro s sid code now ok hinv hmem
  obtain ⟨hnd, hc, hle, hsort⟩ := hinv
  obtain ⟨v, hget⟩ := (mapHas_iff_get _ _).mp hmem
  have hsidc : sid.counter ≤ s.counter := hc sid ((mapHas_eq_keys_mem _ _).mp hmem)
  have hlen := length_mapDelete_of_has hnd hmem
  have hexit : handleSessionExitTry s sid code now ok =
      (processQueueTry { s with active := mapDelete s.active sid } now ok,
        some { v with
                endTime := some now
                status :=
                  if code = some 0 then SessionStatus.completed else SessionStatus.failed }) := by
    unfold handleSessionExitTry
    rw [hget]
  refine ⟨?_, ?_, ?_, ?_⟩
  · refine ⟨{ v with
        endTime := some now
        status := if code = some 0 then SessionStatus.completed else SessionStatus.failed },
      ?_, rfl, rfl⟩
    rw [hexit]
  · rw [hexit]
    exact mapHas_after_remove_processTry s sid now ok hc hsidc
  · intro hq
    rw [hexit]
    exact processQueueTry_of_nil _ now ok hq
  · intro t rest hq
    have hslot : hasAvailableSlot { s with active := mapDelete s.active sid } = true := by
      simp only [hasAvailableSlot, decide_eq_true_eq]
      omega
    rw [hexit]
    rw [processQueueTry_of_cons
      { maxConcurrency := s.maxConcurrency, active := mapDelete s.active sid
        queue := s.queue, counter := s.counter } now ok t rest hq hslot]
    cases ok with
    | true =>
      rw [spawnSessionTry_true_state, spawnSession_state_eq]
      refine ⟨rfl, ?_, ?_, ?_⟩
      · intro u hu
        rw [hq] at hsort
        rcases List.mem_cons.mp (hq ▸ hu) with hu | hu
        · rw [hu]
        · exact (List.pairwise_cons.mp hsort).1 u hu
      · intro _
        constructor
        · refine ⟨(⟨t.library, s.counter + 1, now⟩,
            { id := ⟨t.library, s.counter + 1, now⟩, library := t.library
              status := SessionStatus.active, startTime := now, endTime := none
              taskDescriptor := t.task, contextLoaded := t.context }), ?_, rfl, rfl⟩
          show _ ∈ mapSet (mapDelete s.active sid) _ _
          rw [mapSet_of_not_has _ (counter_fresh_delete sid hc t.library now)]
          exact List.mem_append.mpr (Or.inr (List.mem_singleton.mpr rfl))
        · intro hfull hcl
          have hfree := hcl.1
          simp only [hasAvailableSlot, decide_eq_true_eq] at hfree
          rw [length_mapSet_of_not_has _ (counter_fresh_delete sid hc t.library now)]
            at hfree
          omega
      · intro hcon
        exact Bool.noConfusion hcon
    | false =>
      rw [spawnSessionTry_false_state]
      refine ⟨rfl, ?_, ?_, ?_⟩
      · intro u hu
        rw [hq] at hsort
        rcases List.mem_cons.mp (hq ▸ hu) with hu | hu
        · rw [hu]
        · exact (List.pairwise_cons.mp hsort).1 u hu
      · intro hcon
        exact Bool.noConfusion hcon
      · intro _
        refine ⟨rfl, ?_⟩
        simp only [hasAvailableSlot, decide_eq_true_eq]
        omega

/-- Witness for C3 (amended): on the reachable limit-1 state with the
busy slot and queued priorities 90, 50, 10, an exit whose promotion spawn
fails shifts the priority-90 request, drops it, and leaves the slot free
with the 50 and 10 requests still queued. -/
theorem exit_frees_and_promotes_once_witness :
    (handleSessionExitTry demoPoolQueued ⟨"busy", 1, 0⟩ (some 0) 10 false).1 =
      { demoPoolQueued with
          active := mapDelete demoPoolQueued.active ⟨"busy", 1, 0⟩
          queue := [⟨"c", demoTask50, "ctx", 50⟩, ⟨"a", demoTask10, "ctx", 10⟩]
          counter := demoPoolQueued.counter + 1 } ∧
    hasAvailableSlot (handleSessionExitTry demoPoolQueued ⟨"busy", 1, 0⟩
      (some 0) 10 false).1 = true :=
  ((exit_frees_and_promotes_once demoPoolQueued ⟨"busy", 1, 0⟩ (some 0) 10 false
      (by refine ⟨?_, ?_, ?_, ?_⟩ <;> first | decide | (unfold queueSortedDesc; decide))
      (by decide)).2.2.2
    ⟨"b", demoTask90, "ctx", 90⟩
    [⟨"c", demoTask50, "ctx", 50⟩, ⟨"a", demoTask10, "ctx", 10⟩]
    (by decide)).2.2.2 rfl

/-- C4: `terminateSession` on an id that is not active fails with the
NotFound error and leaves the pool state unchanged; on an active id it
marks the instance completed with the end time, frees the slot, and leaves
the pool in exactly the state a natural exit-code-0 completion would. -/
theorem terminate_notfound_or_completes :
    ∀ (s : PoolState) (sid : SessionId) (now : Nat), poolInv s →
      (mapHas s.active sid = false →
        terminateSession s sid now = Except.error "session not found or not active" ∧
        stepTerminate s sid now = s) ∧
      (mapHas s.active sid = true →
        ∃ s1 inst, terminateSession s sid now = Except.ok (s1, inst) ∧
          inst.status = SessionStatus.completed ∧
          inst.endTime = some now ∧
          mapHas s1.active sid = false ∧
          s1 = (handleSessionExit s sid (some 0) now).1 ∧
          (handleSessionExit s sid (some 0) now).2 = some inst) := by
  intro s sid now hinv
  obtain ⟨hnd, hc, hfull, hle, hsort⟩ := hinv
  constructor
  · intro hnot
    have hget := mapGet_eq_none_of_not_has hnot
    constructor
    · unfold terminateSession
      rw [hget]
    · unfold stepTerminate terminateSession
      rw [hget]
  · intro hmem
    obtain ⟨v, hget⟩ := (mapHas_iff_get _ _).mp hmem
    have hsidc : sid.counter ≤ s.counter := hc sid ((mapHas_eq_keys_mem _ _).mp hmem)
    have hexit : handleSessionExit s sid (some 0) now =
        (processQueue { s with active := mapDelete s.active sid } now,
          some { v with
                  endTime := some now
                  status :=
                    if (some 0 : Option Int) = some 0 then SessionStatus.completed
                    else SessionStatus.failed }) := by
      unfold handleSessionExit
      rw [hget]
    refine ⟨processQueue { s with active := mapDelete s.active sid } now,
      { v with status := SessionStatus.completed, endTime := some now },
      ?_, rfl, rfl, ?_, ?_, ?_⟩
    · unfold terminateSession
      rw [hget]
    · exact mapHas_after_remove_process s sid now hc hsidc
    · rw [hexit]
    · rw [hexit]
      simp

/-- Witness for C4: terminating an unknown id fails with NotFound and
leaves the pool untouched. -/
theorem terminate_notfound_or_completes_witness :
    terminateSession demoPoolOneActive ⟨"zz", 9, 9⟩ 7 =
        Except.error "session not found or not active" ∧
    stepTerminate demoPoolOneActive ⟨"zz", 9, 9⟩ 7 = demoPoolOneActive :=
  (terminate_notfound_or_completes demoPoolOneActive ⟨"zz", 9, 9⟩ 7
    (by unfold poolInv queueSortedDesc; decide)).1 (by decide)

/-- Counterexample for C5: a completed entry with content "X" also deletes
a todo whose content is the empty string, which the claim says should
survive since its content is not "X" — the truthiness guard drops it. -/
theorem addEntry_completed_counterexample :
    ¬((addEntry demoMemEmptyTodo "s2" EntryType.completed "X" 10).currentTodos =
        demoMemEmptyTodo.currentTodos.filter (fun t => !(t.content == "X"))) := by
  decide

/-- C5 (amended): a completed entry removes exactly the todos whose
content is empty or equals the entry content character-for-character,
prepends the completed entry to recentChanges capped at 20, leaves the
other collections untouched, and when no todo matches (and none has empty
content) the todo list is unchanged — the operation always succeeds. -/
theorem addEntry_completed_removes_matching :
    ∀ (mem : LibraryWorkingMemory) (sid x : String) (now : Nat),
      (addEntry mem sid EntryType.completed x now).currentTodos =
        mem.currentTodos.filter (fun t => !(t.content == "") && !(t.content == x)) ∧
      (addEntry mem sid EntryType.completed x now).recentChanges =
        ({ timestamp := now, sessionId := sid, type := EntryType.completed, content := x }
            :: mem.recentChanges).take MAX_ENTRIES_PER_TYPE ∧
      (addEntry mem sid EntryType.completed x now).openQuestions = mem.openQuestions ∧
      (addEntry mem sid EntryType.completed x now).blockedItems = mem.blockedItems ∧
      (addEntry mem sid EntryType.completed x now).recentHandoffs = mem.recentHandoffs ∧
      (addEntry mem sid EntryType.completed x now).currentContext = mem.currentContext ∧
      ((∀ t ∈ mem.currentTodos, ¬(t.content = "") ∧ ¬(t.content = x)) →
        (addEntry mem sid EntryType.completed x now).currentTodos = mem.currentTodos) := by
  intro mem sid x now
  refine ⟨rfl, rfl, rfl, rfl, rfl, rfl, ?_⟩
  intro h
  show mem.currentTodos.filter _ = mem.currentTodos
  apply List.filter_eq_self.mpr
  intro t ht
  have := h t ht
  simp [this.1, this.2]

/-- Witness for C5: with one non-matching, non-empty todo, the completed
entry leaves the todo list unchanged. -/
theorem addEntry_completed_removes_matching_witness :
    (addEntry demoMemAtCutoff "s2" EntryType.completed "nope" 10).currentTodos =
      demoMemAtCutoff.currentTodos :=
  (addEntry_completed_removes_matching demoMemAtCutoff "s2" "nope" 10).2.2.2.2.2.2
    (by decide)

/-- Counterexample for C9: an entry stamped exactly at the cutoff instant
is not older than the cutoff, so the claim says it survives, but the
strict-greater filter removes it. -/
theorem cleanup_counterexample :
    ¬((cleanupOldEntries demoMemAtCutoff 1 7200000).currentTodos =
        demoMemAtCutoff.currentTodos.filter
          (fun t => ((7200000 : Int) - 1 * 3600000) ≤ (t.timestamp : Int))) := by
  decide

/-- C9 (amended): the cleanup pass removes from currentTodos,
recentChanges and openQuestions exactly the entries whose timestamp is at
or before the cutoff (strictly newer entries survive), and leaves
blockedItems, recentHandoffs, currentContext, library and lastUpdated
untouched. -/
theorem cleanup_drops_aged_keeps_blocked :
    ∀ (mem : LibraryWorkingMemory) (hoursOld now : Nat),
      (cleanupOldEntries mem hoursOld now).currentTodos =
        mem.currentTodos.filter
          (fun t => ((now : Int) - (hoursOld : Int) * 3600000) < (t.timestamp : Int)) ∧
      (cleanupOldEntries mem hoursOld now).recentChanges =
        mem.recentChanges.filter
          (fun t => ((now : Int) - (hoursOld : Int) * 3600000) < (t.timestamp : Int)) ∧
      (cleanupOldEntries mem hoursOld now).openQuestions =
        mem.openQuestions.filter
          (fun t => ((now : Int) - (hoursOld : Int) * 3600000) < (t.timestamp : Int)) ∧
      (cleanupOldEntries mem hoursOld now).blockedItems = mem.blockedItems ∧
      (cleanupOldEntries mem hoursOld now).recentHandoffs = mem.recentHandoffs ∧
      (cleanupOldEntries mem hoursOld now).currentContext = mem.currentContext ∧
      (cleanupOldEntries mem hoursOld now).library = mem.library ∧
      (cleanupOldEntries mem hoursOld now).lastUpdated = mem.lastUpdated := by
  intro mem hoursOld now
  exact ⟨rfl, rfl, rfl, rfl, rfl, rfl, rfl, rfl⟩

theorem filterSeen_cons (x : KnowledgeItem) (xs : List KnowledgeItem)
    (seen : List (Option String)) :
    filterSeen seen (x :: xs) =
      if seen.contains (jsKey x) then filterSeen seen xs
      else x :: filterSeen (jsKey x :: seen) xs := rfl

theorem filterSeen_congr :
    ∀ (l : List KnowledgeItem) (seen1 seen2 : List (Option String)),
      (∀ k, k ∈ seen1 ↔ k ∈ seen2) → filterSeen seen1 l = filterSeen seen2 l := by
  intro l
  induction l with
  | nil => intro seen1 seen2 _; rfl
  | cons x xs ih =>
    intro seen1 seen2 hiff
    rw [filterSeen_cons, filterSeen_cons]
    by_cases h : jsKey x ∈ seen1
    · have h1 : seen1.contains (jsKey x) = true := List.elem_iff.mpr h
      have h2 : seen2.contains (jsKey x) = true := List.elem_iff.mpr ((hiff _).mp h)
      rw [if_pos h1, if_pos h2]
      exact ih seen1 seen2 hiff
    · have h1 : ¬seen1.contains (jsKey x) = true := fun hc => h (List.elem_iff.mp hc)
      have h2 : ¬seen2.contains (jsKey x) = true := fun hc =>
        h ((hiff _).mpr (List.elem_iff.mp hc))
      rw [if_neg h1, if_neg h2]
      congr 1
      apply ih
      intro k
      simp only [List.mem_cons]
      exact or_congr Iff.rfl (hiff k)

theorem filterSeen_of_disjoint :
    ∀ (l : List KnowledgeItem) (seen : List (Option String)),
      (l.map jsKey).Nodup → (∀ k ∈ l.map jsKey, k ∉ seen) →
      filterSeen seen l = l := by
  intro l
  induction l with
  | nil => intro seen _ _; rfl
  | cons x xs ih =>
    intro seen hnd hdisj
    have hx : jsKey x ∉ seen :=
      hdisj (jsKey x) (List.mem_map.mpr ⟨x, List.mem_cons_self x xs, rfl⟩)
    have hnd2 := List.nodup_cons.mp (by rw [List.map_cons] at hnd; exact hnd)
    rw [filterSeen_cons]
    rw [if_neg (fun hc => hx (List.elem_iff.mp hc))]
    congr 1
    apply ih (jsKey x :: seen) hnd2.2
    intro k hk
    simp only [List.mem_cons]
    intro hc
    rcases hc with hc | hc
    · exact hnd2.1 (hc ▸ hk)
    · exact hdisj k (List.mem_map.mp hk |>.elim fun y hy =>
        List.mem_map.mpr ⟨y, List.mem_cons_of_mem x hy.1, hy.2⟩) hc

theorem filterSeen_eq_filter :
    ∀ (l : List KnowledgeItem) (seen : List (Option String)),
      (l.map jsKey).Nodup →
      filterSeen seen l = l.filter (fun x => !(seen.contains (jsKey x))) := by
  intro l
  induction l with
  | nil => intro seen _; rfl
  | cons x xs ih =>
    intro seen hnd
    have hnd2 := List.nodup_cons.mp (by rw [List.map_cons] at hnd; exact hnd)
    rw [filterSeen_cons]
    by_cases h : jsKey x ∈ seen
    · have h1 : seen.contains (jsKey x) = true := List.elem_iff.mpr h
      rw [if_pos h1, List.filter_cons]
      simp only [h1, Bool.not_true, Bool.false_eq_true, if_false]
      exact ih seen hnd2.2
    · have h1 : ¬seen.contains (jsKey x) = true := fun hc => h (List.elem_iff.mp hc)
      have h1f : seen.contains (jsKey x) = false := by
        cases hc : seen.contains (jsKey x)
        · rfl
        · exact absurd hc h1
      rw [if_neg h1, List.filter_cons]
      simp only [h1f, Bool.not_false, if_true]
      congr 1
      rw [ih (jsKey x :: seen) hnd2.2]
      apply List.filter_congr
      intro y hy
      have hne : jsKey y ≠ jsKey x := by
        intro he
        exact hnd2.1 (he ▸ List.mem_map.mpr ⟨y, hy, rfl⟩)
      simp only [List.contains_cons]
      have : (jsKey y == jsKey x) = false := by
        simpa using hne
      rw [this]
      simp

theorem filterSeen_cons_mem (x : KnowledgeItem) (xs : List KnowledgeItem)
    (seen : List (Option String)) (h : seen.contains (jsKey x) = true) :
    filterSeen seen (x :: xs) = filterSeen seen xs := by
  rw [filterSeen_cons, if_pos h]

theorem filterSeen_cons_notMem (x : KnowledgeItem) (xs : List KnowledgeItem)
    (seen : List (Option String)) (h : ¬seen.contains (jsKey x) = true) :
    filterSeen seen (x :: xs) = x :: filterSeen (jsKey x :: seen) xs := by
  rw [filterSeen_cons, if_neg h]

theorem filterSeen_append :
    ∀ (l1 l2 : List KnowledgeItem) (seen : List (Option String)),
      filterSeen seen (l1 ++ l2) =
        filterSeen seen l1 ++
          filterSeen ((filterSeen seen l1).map jsKey ++ seen) l2 := by
  intro l1
  induction l1 with
  | nil => intro l2 seen; rfl
  | cons x xs ih =>
    intro l2 seen
    rw [List.cons_append]
    by_cases h : jsKey x ∈ seen
    · have h1 : seen.contains (jsKey x) = true := List.elem_iff.mpr h
      rw [filterSeen_cons_mem x (xs ++ l2) seen h1, filterSeen_cons_mem x xs seen h1]
      exact ih l2 seen
    · have h1 : ¬seen.contains (jsKey x) = true := fun hc => h (List.elem_iff.mp hc)
      rw [filterSeen_cons_notMem x (xs ++ l2) seen h1, filterSeen_cons_notMem x xs seen h1]
      rw [ih l2 (jsKey x :: seen)]
      rw [List.cons_append, List.map_cons, List.cons_append]
      congr 1
      congr 1
      apply filterSeen_congr
      intro k
      simp only [List.mem_append, List.mem_cons]
      tauto

theorem prioritize_eq (w p : List KnowledgeItem)
    (hw : (w.map jsKey).Nodup) (hp : (p.map jsKey).Nodup) :
    prioritizeLibraryKnowledge w p =
      w.filter (fun i => !((p.map jsKey).contains (jsKey i))) ++ p := by
  unfold prioritizeLibraryKnowledge
  show (filterSeen [] (w ++ p).reverse).reverse =
    w.filter (fun i => !((p.map jsKey).contains (jsKey i))) ++ p
  rw [List.reverse_append]
  rw [filterSeen_append]
  have hpkeys : (p.reverse.map jsKey).Nodup := by
    rw [List.map_reverse]
    exact List.nodup_reverse.mpr hp
  have hprev : filterSeen [] p.reverse = p.reverse := by
    apply filterSeen_of_disjoint p.reverse [] hpkeys
    intro k _ hk
    simp at hk
  rw [hprev]
  have hwkeys : (w.reverse.map jsKey).Nodup := by
    rw [List.map_reverse]
    exact List.nodup_reverse.mpr hw
  rw [filterSeen_congr w.reverse (p.reverse.map jsKey ++ []) (p.map jsKey)
    (by intro k; simp)]
  rw [filterSeen_eq_filter w.reverse (p.map jsKey) hwkeys]
  rw [List.filter_reverse]
  rw [List.reverse_append, List.reverse_reverse, List.reverse_reverse]

/-- C7: the hierarchical view merges decisions and patterns independently
via `prioritizeLibraryKnowledge`; on scope collections with internally
distinct keys the merge keeps exactly the workspace items whose key does
not occur among the project items, in workspace order, followed by all
project items; and with a workspace decision and a project decision both
titled Use X, exactly one record survives, carrying the project-scoped
reasoning. -/
theorem hierarchical_override_merge :
    (∀ (ws lib : ScopeContext) (library : String),
      (mergeContexts ws lib library).decisions =
          prioritizeLibraryKnowledge ws.decisions lib.decisions ∧
      (mergeContexts ws lib library).patterns =
          prioritizeLibraryKnowledge ws.patterns lib.patterns) ∧
    (∀ w p : List KnowledgeItem, (w.map jsKey).Nodup → (p.map jsKey).Nodup →
      prioritizeLibraryKnowledge w p =
        w.filter (fun i => !((p.map jsKey).contains (jsKey i))) ++ p) ∧
    (prioritizeLibraryKnowledge [demoWsDecision] [demoProjDecision] = [demoProjDecision] ∧
      (prioritizeLibraryKnowledge [demoWsDecision] [demoProjDecision]).map
          (fun i => i.reasoning) = ["project reasoning"]) := by
  refine ⟨fun ws lib library => ⟨rfl, rfl⟩, prioritize_eq, by decide, by decide⟩

/-- Witness for C7: the override characterization applied to the Use X
collision, with the key-distinctness hypotheses discharged. -/
theorem hierarchical_override_merge_witness :
    prioritizeLibraryKnowledge [demoWsDecision] [demoProjDecision] =
      [demoWsDecision].filter
        (fun i => !(([demoProjDecision].map jsKey).contains (jsKey i))) ++
        [demoProjDecision] :=
  hierarchical_override_merge.2.1 [demoWsDecision] [demoProjDecision]
    (by decide) (by decide)

theorem mem_addToSet (proc : List String) (c x : String) :
    x ∈ addToSet proc c ↔ x ∈ proc ∨ x = c := by
  unfold addToSet
  by_cases h : proc.contains c = true
  · rw [if_pos h]
    constructor
    · exact fun hx => Or.inl hx
    · intro hx
      rcases hx with hx | hx
      · exact hx
      · exact hx ▸ List.elem_iff.mp h
  · rw [if_neg h]
    simp

theorem nodup_addToSet (proc : List String) (c : String) (h : proc.Nodup) :
    (addToSet proc c).Nodup := by
  unfold addToSet
  by_cases hc : proc.contains c = true
  · rw [if_pos hc]
    exact h
  · rw [if_neg hc]
    rw [List.nodup_append]
    refine ⟨h, List.nodup_singleton _, ?_⟩
    intro x hx
    simp only [List.mem_singleton]
    intro hxc
    exact hc (List.elem_iff.mpr (hxc ▸ hx))

theorem mem_foldl_addToSet :
    ∀ (cur proc : List String) (x : String),
      x ∈ cur.foldl addToSet proc ↔ x ∈ proc ∨ x ∈ cur := by
  intro cur
  induction cur with
  | nil => intro proc x; simp
  | cons c cs ih =>
    intro proc x
    rw [List.foldl_cons, ih (addToSet proc c) x, mem_addToSet]
    simp only [List.mem_cons]
    tauto

theorem nodup_foldl_addToSet :
    ∀ (cur proc : List String), proc.Nodup → (cur.foldl addToSet proc).Nodup := by
  intro cur
  induction cur with
  | nil => intro proc h; exact h
  | cons c cs ih => intro proc h; exact ih (addToSet proc c) (nodup_addToSet proc c h)

theorem cdapGo_succ (dm : String → List String) (libs : List String) (ms fuel : Nat)
    (proc : List String) (pn : Nat) :
    cdapGo dm libs ms (fuel + 1) proc pn =
      if proc.length < libs.length then
        (let ready0 := libs.filter (fun lib =>
            !proc.contains lib && (dm lib).all (fun dep => proc.contains dep))
        let ready :=
          if ready0.isEmpty then
            (libs.filter (fun lib => !proc.contains lib)).take ms
          else ready0
        let current := ready.take ms
        { phase := pn, libraries := current
          parallelizable := decide (current.length > 1)
          dependencies := current.flatMap dm } ::
          cdapGo dm libs ms fuel (current.foldl addToSet proc) (pn + 1))
      else [] := rfl

theorem ready_nonempty (dm : String → List String) (libs : List String)
    (hnd : libs.Nodup) (acyc : depAcyclic dm libs)
    (hdep : ∀ l, ∀ d ∈ dm l, d ∈ libs)
    (proc : List String) (hlt : proc.length < libs.length) :
    (libs.filter (fun lib =>
        !proc.contains lib && (dm lib).all (fun dep => proc.contains dep))).isEmpty
      = false := by
  set U := libs.filter (fun l => !proc.contains l) with hU
  have hUne : U ≠ [] := by
    intro hUe
    have hsub2 : libs ⊆ proc := by
      intro l hl
      by_contra hlp
      have : l ∈ U := by
        rw [hU]
        apply List.mem_filter.mpr
        refine ⟨hl, ?_⟩
        simp only [Bool.not_eq_eq_eq_not, Bool.not_true]
        cases hc : proc.contains l
        · rfl
        · exact absurd (List.elem_iff.mp hc) hlp
      rw [hUe] at this
      exact absurd this (List.not_mem_nil l)
    have := (List.subperm_of_subset hnd hsub2).length_le
    omega
  have hUsub : ∀ l ∈ U, l ∈ libs := by
    intro l hl
    exact (List.mem_filter.mp (hU ▸ hl)).1
  obtain ⟨l, hlU, hldeps⟩ := acyc U hUne hUsub
  have hlmem := List.mem_filter.mp (hU ▸ hlU)
  have hlnp : ¬(proc.contains l = true) := by
    have := hlmem.2
    intro hc
    rw [hc] at this
    simp at this
  have hready : l ∈ libs.filter (fun lib =>
      !proc.contains lib && (dm lib).all (fun dep => proc.contains dep)) := by
    apply List.mem_filter.mpr
    refine ⟨hlmem.1, ?_⟩
    rw [Bool.and_eq_true]
    constructor
    · simp only [Bool.not_eq_eq_eq_not, Bool.not_true]
      cases hc : proc.contains l
      · rfl
      · exact absurd hc hlnp
    · apply List.all_eq_true.mpr
      intro d hd
      have hdl := hldeps d hd
      have hdlibs := hdep l d hd
      by_contra hdc
      apply hdl
      rw [hU]
      apply List.mem_filter.mpr
      refine ⟨hdlibs, ?_⟩
      simp only [Bool.not_eq_eq_eq_not, Bool.not_true]
      cases hc : proc.contains d
      · rfl
      · exact absurd (List.elem_iff.mp hc)
          (fun hmem => hdc (List.elem_iff.mpr hmem))
  cases hres : (libs.filter (fun lib =>
      !proc.contains lib && (dm lib).all (fun dep => proc.contains dep))).isEmpty
  · rfl
  · rw [List.isEmpty_iff] at hres
    rw [hres] at hready
    exact absurd hready (List.not_mem_nil l)

theorem cdapGo_sound (dm : String → List String) (libs : List String) (ms : Nat)
    (hnd : libs.Nodup) (acyc : depAcyclic dm libs)
    (hdep : ∀ l, ∀ d ∈ dm l, d ∈ libs) :
    ∀ (fuel : Nat) (proc : List String) (pn : Nat),
      (∀ x ∈ proc, x ∈ libs) →
      ∀ (i : Nat) (hi : i < (cdapGo dm libs ms fuel proc pn).length) (lib : String),
        lib ∈ ((cdapGo dm libs ms fuel proc pn).get ⟨i, hi⟩).libraries →
        ∀ d ∈ dm lib,
          (∃ j, ∃ hj : j < (cdapGo dm libs ms fuel proc pn).length, j < i ∧
            d ∈ ((cdapGo dm libs ms fuel proc pn).get ⟨j, hj⟩).libraries) ∨
          d ∈ proc := by
  intro fuel
  induction fuel with
  | zero =>
    intro proc pn _ i hi
    rw [show cdapGo dm libs ms 0 proc pn = [] from rfl] at hi
    simp at hi
  | succ fuel ih =>
    intro proc pn hsub i
    by_cases h : proc.length < libs.length
    · have hne := ready_nonempty dm libs hnd acyc hdep proc h
      have hL : cdapGo dm libs ms (fuel + 1) proc pn =
          { phase := pn
            libraries := (libs.filter (fun lib =>
              !proc.contains lib &&
                (dm lib).all (fun dep => proc.contains dep))).take ms
            parallelizable := decide (((libs.filter (fun lib =>
              !proc.contains lib &&
                (dm lib).all (fun dep => proc.contains dep))).take ms).length > 1)
            dependencies := ((libs.filter (fun lib =>
              !proc.contains lib &&
                (dm lib).all (fun dep => proc.contains dep))).take ms).flatMap dm } ::
          cdapGo dm libs ms fuel
            (((libs.filter (fun lib =>
              !proc.contains lib &&
                (dm lib).all (fun dep => proc.contains dep))).take ms).foldl
              addToSet proc)
            (pn + 1) := by
        rw [cdapGo_succ, if_pos h]
        simp only [hne, Bool.false_eq_true, if_false]
      rw [hL]
      cases i with
      | zero =>
        intro hi lib hlib d hd
        right
        have hlib2 : lib ∈ (libs.filter (fun lib =>
            !proc.contains lib &&
              (dm lib).all (fun dep => proc.contains dep))).take ms := hlib
        have hmem := List.mem_of_mem_take hlib2
        have hpred := (List.mem_filter.mp hmem).2
        rw [Bool.and_eq_true] at hpred
        have hall := List.all_eq_true.mp hpred.2 d hd
        exact List.elem_iff.mp hall
      | succ i =>
        intro hi lib hlib d hd
        have hi2 : i < (cdapGo dm libs ms fuel
            (((libs.filter (fun lib =>
              !proc.contains lib &&
                (dm lib).all (fun dep => proc.contains dep))).take ms).foldl
              addToSet proc) (pn + 1)).length := by
          have := hi
          simp only [List.length_cons] at this
          omega
        have hsub2 : ∀ x ∈ ((libs.filter (fun lib =>
            !proc.contains lib &&
              (dm lib).all (fun dep => proc.contains dep))).take ms).foldl
            addToSet proc, x ∈ libs := by
          intro x hx
          rcases (mem_foldl_addToSet _ _ _).mp hx with hx | hx
          · exact hsub x hx
          · exact (List.mem_filter.mp (List.mem_of_mem_take hx)).1
        have hlib2 : lib ∈ ((cdapGo dm libs ms fuel
            (((libs.filter (fun lib =>
              !proc.contains lib &&
                (dm lib).all (fun dep => proc.contains dep))).take ms).foldl
              addToSet proc) (pn + 1)).get ⟨i, hi2⟩).libraries := hlib
        rcases ih _ (pn + 1) hsub2 i hi2 lib hlib2 d hd with ⟨j, hj, hji, hjm⟩ | hproc
        · left
          refine ⟨j + 1, ?_, by omega, ?_⟩
          · simp only [List.length_cons]
            omega
          · exact hjm
        · rcases (mem_foldl_addToSet _ _ _).mp hproc with hp | hp
          · right
            exact hp
          · left
            refine ⟨0, ?_, by omega, ?_⟩
            · simp only [List.length_cons]
              omega
            · exact hp
    · intro hi
      rw [cdapGo_succ, if_neg h] at hi
      simp at hi

theorem parallelizable_iff_cdapGo (dm : String → List String) (libs : List String)
    (ms : Nat) :
    ∀ (fuel : Nat) (proc : List String) (pn : Nat),
      ∀ ph ∈ cdapGo dm libs ms fuel proc pn,
        ph.parallelizable = decide (ph.libraries.length > 1) := by
  intro fuel
  induction fuel with
  | zero =>
    intro proc pn ph hph
    rw [show cdapGo dm libs ms 0 proc pn = [] from rfl] at hph
    exact absurd hph (List.not_mem_nil ph)
  | succ fuel ih =>
    intro proc pn ph hph
    rw [cdapGo_succ] at hph
    by_cases h : proc.length < libs.length
    · rw [if_pos h] at hph
      rcases List.mem_cons.mp hph with hph | hph
      · rw [hph]
      · exact ih _ (pn + 1) ph hph
    · rw [if_neg h] at hph
      exact absurd hph (List.not_mem_nil ph)

theorem buildDependencyMap_mem (graph : String → List String) (libs : List String) :
    ∀ l, ∀ d ∈ buildDependencyMap graph libs l, d ∈ libs := by
  intro l d hd
  unfold buildDependencyMap at hd
  by_cases hl : libs.contains l = true
  · rw [if_pos hl] at hd
    exact List.elem_iff.mp (List.mem_filter.mp hd).2
  · rw [if_neg hl] at hd
    exact absurd hd (List.not_mem_nil d)

theorem demoGraph_acyclic :
    depAcyclic (buildDependencyMap demoGraph ["A", "B", "C"]) ["A", "B", "C"] := by
  intro S hne hsub
  by_cases hA : "A" ∈ S
  · refine ⟨"A", hA, ?_⟩
    intro d hd
    simp [buildDependencyMap, demoGraph] at hd
  · by_cases hB : "B" ∈ S
    · refine ⟨"B", hB, ?_⟩
      intro d hd
      have hdA : d = "A" := by
        simpa [buildDependencyMap, demoGraph] using hd
      rw [hdA]
      exact hA
    · cases S with
      | nil => exact absurd rfl hne
      | cons x S2 =>
        have hx := hsub x (List.mem_cons_self x S2)
        have hxC : x = "C" := by
          simp only [List.mem_cons, List.not_mem_nil, or_false] at hx
          rcases hx with hx | hx | hx
          · exact absurd (hx ▸ List.mem_cons_self x S2) hA
          · exact absurd (hx ▸ List.mem_cons_self x S2) hB
          · exact hx
        refine ⟨"C", hxC ▸ List.mem_cons_self x S2, ?_⟩
        intro d hd
        have hdB : d = "B" := by
          simpa [buildDependencyMap, demoGraph] using hd
        rw [hdB]
        exact hB

/-- C8: on candidates A, B, C with B depending on A and C on B and
maxSessions 2, dependency-aware planning yields ordered phases [A], [B],
[C], none parallelizable; every produced phase is parallelizable exactly
when it holds more than one project; and whenever the in-set dependency
relation is acyclic, no project is placed before all its in-set
dependencies have appeared in earlier phases. -/
theorem dependency_aware_phase_planning :
    ((createDependencyAwarePhases demoGraph ["A", "B", "C"] 2).map
        (fun ph => (ph.phase, ph.libraries, ph.parallelizable)) =
      [(1, ["A"], false), (2, ["B"], false), (3, ["C"], false)]) ∧
    (∀ (graph : String → List String) (libs : List String) (ms : Nat),
      ∀ ph ∈ createDependencyAwarePhases graph libs ms,
        ph.parallelizable = decide (ph.libraries.length > 1)) ∧
    (∀ (graph : String → List String) (libs : List String) (ms : Nat),
      libs.Nodup → depAcyclic (buildDependencyMap graph libs) libs →
      ∀ (i : Nat) (hi : i < (createDependencyAwarePhases graph libs ms).length)
        (lib : String),
        lib ∈ ((createDependencyAwarePhases graph libs ms).get ⟨i, hi⟩).libraries →
        ∀ d ∈ buildDependencyMap graph libs lib,
          ∃ j, ∃ hj : j < (createDependencyAwarePhases graph libs ms).length, j < i ∧
            d ∈ ((createDependencyAwarePhases graph libs ms).get ⟨j, hj⟩).libraries) := by
  refine ⟨by decide, ?_, ?_⟩
  · intro graph libs ms ph hph
    exact parallelizable_iff_cdapGo (buildDependencyMap graph libs) libs ms
      libs.length [] 1 ph hph
  · intro graph libs ms hnd acyc i hi lib hlib d hd
    have hres := cdapGo_sound (buildDependencyMap graph libs) libs ms hnd acyc
      (buildDependencyMap_mem graph libs) libs.length [] 1
      (by intro x hx; exact absurd hx (List.not_mem_nil x)) i hi lib hlib d hd
    rcases hres with hres | hres
    · exact hres
    · exact absurd hres (List.not_mem_nil d)

/-- Witness for C8: in the A-B-C chain, the dependency A of the phase-2
project B appears in an earlier phase. -/
theorem dependency_aware_phase_planning_witness :
    ∃ j, ∃ hj : j < (createDependencyAwarePhases demoGraph ["A", "B", "C"] 2).length,
      j < 1 ∧ "A" ∈ ((createDependencyAwarePhases demoGraph
        ["A", "B", "C"] 2).get ⟨j, hj⟩).libraries :=
  dependency_aware_phase_planning.2.2 demoGraph ["A", "B", "C"] 2
    (by decide) demoGraph_acyclic 1 (by decide) "B" (by decide) "A" (by decide)

theorem updateCurrentContext_eq (current newContent : String) :
    updateCurrentContext current newContent =
      if (trimJs (current ++ "\n\n" ++ newContent)).length ≤ MAX_CONTEXT_LENGTH then
        trimJs (current ++ "\n\n" ++ newContent)
      else
        (if (((trimJs (current ++ "\n\n" ++ newContent)).splitOn "\n\n").take
              (((trimJs (current ++ "\n\n" ++ newContent)).splitOn "\n\n").length - 3)).length
              > 0 then
          "[Previous Context Summary]\n" ++
          "- " ++ toString (((trimJs (current ++ "\n\n" ++ newContent)).splitOn "\n\n").take
              (((trimJs (current ++ "\n\n" ++ newContent)).splitOn "\n\n").length - 3)).length ++
            " older sections summarized\n" ++
          "- Key points: " ++
            String.intercalate ", " (extractKeyPoints (String.intercalate " "
              (((trimJs (current ++ "\n\n" ++ newContent)).splitOn "\n\n").take
                (((trimJs (current ++ "\n\n" ++ newContent)).splitOn "\n\n").length - 3)))) ++
          "\n\n"
        else "") ++
        String.intercalate "\n\n"
          (((trimJs (current ++ "\n\n" ++ newContent)).splitOn "\n\n").drop
            (((trimJs (current ++ "\n\n" ++ newContent)).splitOn "\n\n").length - 3)) := rfl

/-- Counterexample for C6: with the current narrative " a" and appended
content "b" the combined text has 5 characters, well under the limit, yet
the stored narrative is "a\n\nb" — the leading space of the existing
content has been dropped by the trim, so the combination is not kept
verbatim. -/
theorem context_update_counterexample :
    (" a" ++ "\n\n" ++ "b").length ≤ 5000 ∧
    ¬(updateCurrentContext " a" "b" = " a" ++ "\n\n" ++ "b") := by
  constructor
  · decide
  · decide

/-- C6 (amended): the narrative update first trims the joined text
(current, blank line, new content) of leading and trailing whitespace;
within `MAX_CONTEXT_LENGTH` (5000) characters the trimmed text is kept
verbatim, and beyond it the text is split on blank lines, the last three
sections are kept verbatim as the suffix, and everything earlier is
replaced by a synthetic summary holding the count of folded sections and
the key phrases extracted after "completed" and "decided to". -/
theorem context_update_summarization :
    MAX_CONTEXT_LENGTH = 5000 ∧
    ∀ (current newContent : String),
      ((trimJs (current ++ "\n\n" ++ newContent)).length ≤ MAX_CONTEXT_LENGTH →
        updateCurrentContext current newContent =
          trimJs (current ++ "\n\n" ++ newContent)) ∧
      (MAX_CONTEXT_LENGTH < (trimJs (current ++ "\n\n" ++ newContent)).length →
        (updateCurrentContext current newContent =
          (if (((trimJs (current ++ "\n\n" ++ newContent)).splitOn "\n\n").take
                (((trimJs (current ++ "\n\n" ++ newContent)).splitOn "\n\n").length - 3)).length
                > 0 then
            "[Previous Context Summary]\n" ++
            "- " ++ toString (((trimJs (current ++ "\n\n" ++ newContent)).splitOn "\n\n").take
                (((trimJs (current ++ "\n\n" ++ newContent)).splitOn "\n\n").length - 3)).length ++
              " older sections summarized\n" ++
            "- Key points: " ++
              String.intercalate ", " (extractKeyPoints (String.intercalate " "
                (((trimJs (current ++ "\n\n" ++ newContent)).splitOn "\n\n").take
                  (((trimJs (current ++ "\n\n" ++ newContent)).splitOn "\n\n").length - 3)))) ++
            "\n\n"
          else "") ++
          String.intercalate "\n\n"
            (((trimJs (current ++ "\n\n" ++ newContent)).splitOn "\n\n").drop
              (((trimJs (current ++ "\n\n" ++ newContent)).splitOn "\n\n").length - 3))) ∧
        ∃ summaryPart, updateCurrentContext current newContent =
          summaryPart ++ String.intercalate "\n\n"
            (((trimJs (current ++ "\n\n" ++ newContent)).splitOn "\n\n").drop
              (((trimJs (current ++ "\n\n" ++ newContent)).splitOn "\n\n").length - 3))) := by
  refine ⟨rfl, ?_⟩
  intro current newContent
  constructor
  · intro h
    rw [updateCurrentContext_eq, if_pos h]
  · intro h
    have hneg : ¬(trimJs (current ++ "\n\n" ++ newContent)).length ≤ MAX_CONTEXT_LENGTH := by
      omega
    have heq := updateCurrentContext_eq current newContent
    rw [if_neg hneg] at heq
    exact ⟨heq, ⟨_, heq⟩⟩

/-- Witness for C6: a short update is stored verbatim after the trim. -/
theorem context_update_summarization_witness :
    updateCurrentContext "alpha" "beta" = trimJs ("alpha" ++ "\n\n" ++ "beta") :=
  ((context_update_summarization.2 "alpha" "beta").1 (by decide))

theorem toNat_ofNat_valid {n : Nat} (h : n.isValidChar) : (Char.ofNat n).toNat = n := by
  unfold Char.ofNat
  rw [dif_pos h]
  unfold Char.ofNatAux Char.toNat
  simp [UInt32.toNat]

theorem isUpper_iff (c : Char) : c.isUpper = true ↔ 65 ≤ c.toNat ∧ c.toNat ≤ 90 := by
  unfold Char.isUpper
  rw [Bool.and_eq_true]
  simp only [decide_eq_true_eq]
  exact Iff.rfl

theorem toLower_spec (c : Char) :
    (Char.toLower c = c ∧ c.isUpper = false) ∨
    (97 ≤ (Char.toLower c).toNat ∧ (Char.toLower c).toNat ≤ 122 ∧ c.isUpper = true) := by
  unfold Char.toLower
  simp only []
  by_cases h : 65 ≤ c.toNat ∧ c.toNat ≤ 90
  · rw [if_pos h]
    right
    have hvalid : (c.toNat + 32).isValidChar := Or.inl (by omega)
    rw [toNat_ofNat_valid hvalid]
    refine ⟨by omega, by omega, ?_⟩
    rw [isUpper_iff]
    omega
  · rw [if_neg h]
    left
    refine ⟨rfl, ?_⟩
    cases hu : c.isUpper
    · rfl
    · exact absurd ((isUpper_iff c).mp hu) h

theorem isUpper_toLower (c : Char) : (Char.toLower c).isUpper = false := by
  rcases toLower_spec c with ⟨h1, h2⟩ | ⟨h1, h2, _⟩
  · rw [h1]
    exact h2
  · cases hu : (Char.toLower c).isUpper
    · rfl
    · have := (isUpper_iff _).mp hu
      omega

theorem toLower_eq_dash_iff (c : Char) : Char.toLower c = '-' ↔ c = '-' := by
  constructor
  · intro h
    rcases toLower_spec c with ⟨h1, _⟩ | ⟨h1, _, _⟩
    · rw [← h1]
      exact h
    · rw [h] at h1
      exact absurd h1 (by decide)
  · intro h
    rw [h]
    decide

theorem toLower_ne_of_ne_low (c : Char) (d : Char) (hd : d.toNat < 97)
    (hne : c ≠ d) : Char.toLower c ≠ d := by
  intro h
  rcases toLower_spec c with ⟨h1, _⟩ | ⟨h1, _, _⟩
  · rw [h1] at h
    exact hne h
  · rw [h] at h1
    omega

theorem head?_dropWhile (p : Char → Bool) :
    ∀ (l : List Char) (a : Char), (l.dropWhile p).head? = some a → p a = false := by
  intro l
  induction l with
  | nil => intro a h; simp [List.dropWhile] at h
  | cons c rest ih =>
    intro a h
    rw [List.dropWhile_cons] at h
    by_cases hc : p c = true
    · rw [if_pos hc] at h
      exact ih a h
    · rw [if_neg hc] at h
      simp only [List.head?_cons, Option.some.injEq] at h
      rw [← h]
      cases hpc : p c
      · rfl
      · exact absurd hpc hc

theorem getLast?_dropWhile_of_ne_nil (p : Char → Bool) (l : List Char)
    (h : l.dropWhile p ≠ []) : (l.dropWhile p).getLast? = l.getLast? := by
  conv_rhs => rw [← List.takeWhile_append_dropWhile p l]
  rw [List.getLast?_append_of_ne_nil _ h]

theorem stripEdgeDashes_head? (cs : List Char) :
    (stripEdgeDashes cs).head? ≠ some '-' := by
  unfold stripEdgeDashes
  intro h
  rw [List.head?_reverse] at h
  set Z := (cs.dropWhile (fun c => c = '-')).reverse.dropWhile (fun c => c = '-') with hZ
  have hZne : Z ≠ [] := by
    intro hze
    rw [hze] at h
    simp at h
  rw [hZ, getLast?_dropWhile_of_ne_nil _ _ (hZ ▸ hZne)] at h
  rw [List.getLast?_reverse] at h
  have := head?_dropWhile (fun c => c = '-') cs '-' h
  simp at this

theorem stripEdgeDashes_getLast? (cs : List Char) :
    (stripEdgeDashes cs).getLast? ≠ some '-' := by
  unfold stripEdgeDashes
  intro h
  rw [List.getLast?_reverse] at h
  have := head?_dropWhile (fun c => c = '-') _ '-' h
  simp at this

theorem collapseDashesGo_true_head? (cs : List Char) :
    (collapseDashesGo true cs).head? ≠ some '-' := by
  induction cs with
  | nil => simp [collapseDashesGo]
  | cons c rest ih =>
    unfold collapseDashesGo
    by_cases hc : c = '-'
    · rw [if_pos hc, if_pos rfl]
      exact ih
    · rw [if_neg hc]
      simp only [List.head?_cons, ne_eq, Option.some.injEq]
      exact hc

theorem collapseDashesGo_false_head? (cs : List Char) (h : cs.head? ≠ some '-') :
    (collapseDashesGo false cs).head? = cs.head? := by
  cases cs with
  | nil => rfl
  | cons c rest =>
    have hc : ¬c = '-' := by
      intro hcd
      exact h (by rw [hcd]; rfl)
    unfold collapseDashesGo
    rw [if_neg hc]
    rfl

theorem collapseDashesGo_true_eq_nil (cs : List Char)
    (h : collapseDashesGo true cs = []) : ∀ c ∈ cs, c = '-' := by
  induction cs with
  | nil => intro c hc; exact absurd hc (List.not_mem_nil c)
  | cons c rest ih =>
    intro d hd
    unfold collapseDashesGo at h
    by_cases hc : c = '-'
    · rw [if_pos hc, if_pos rfl] at h
      rcases List.mem_cons.mp hd with hd | hd
      · rw [hd, hc]
      · exact ih h d hd
    · rw [if_neg hc] at h
      exact absurd h (List.cons_ne_nil c _)

theorem collapseDashesGo_getLast? :
    ∀ (cs : List Char) (b : Bool), (collapseDashesGo b cs).getLast? = some '-' →
      cs.getLast? = some '-' := by
  intro cs
  induction cs with
  | nil => intro b h; simp [collapseDashesGo] at h
  | cons c rest ih =>
    intro b h
    by_cases hc : c = '-'
    · subst hc
      cases b with
      | true =>
        have hstep : collapseDashesGo true (List.cons '-' rest) =
            collapseDashesGo true rest := rfl
        rw [hstep] at h
        have hlast := ih true h
        simp [List.getLast?_cons, hlast]
      | false =>
        have hstep : collapseDashesGo false (List.cons '-' rest) =
            '-' :: collapseDashesGo true rest := rfl
        rw [hstep] at h
        cases hcol : collapseDashesGo true rest with
        | nil =>
          have hall := collapseDashesGo_true_eq_nil rest hcol
          cases hlast : rest.getLast? with
          | none => simp [List.getLast?_cons, hlast]
          | some x =>
            have hx := hall x (List.mem_of_mem_getLast? hlast)
            simp [List.getLast?_cons, hlast, hx]
        | cons z zs =>
          rw [hcol, List.getLast?_cons_cons, ← hcol] at h
          have hlast := ih true h
          simp [List.getLast?_cons, hlast]
    · have hstep : collapseDashesGo b (c :: rest) = c :: collapseDashesGo false rest := by
        unfold collapseDashesGo
        rw [if_neg hc]
        congr 1
        cases rest
        · rfl
        · rfl
      rw [hstep] at h
      cases hcol : collapseDashesGo false rest with
      | nil =>
        rw [hcol] at h
        simp at h
        exact absurd h hc
      | cons z zs =>
        rw [hcol, List.getLast?_cons_cons, ← hcol] at h
        have hlast := ih false h
        simp [List.getLast?_cons, hlast]

theorem collapseDashesGo_cons_ne (c : Char) (rest : List Char) (hc : ¬c = '-') (b : Bool) :
    collapseDashesGo b (c :: rest) = c :: collapseDashesGo false rest := by
  unfold collapseDashesGo
  rw [if_neg hc]
  congr 1
  cases rest
  · rfl
  · rfl

theorem collapseDashesGo_chain :
    ∀ (cs : List Char) (b : Bool),
      List.Chain' (fun a d => ¬(a = '-' ∧ d = '-')) (collapseDashesGo b cs) := by
  intro cs
  induction cs with
  | nil => intro b; simp [collapseDashesGo]
  | cons c rest ih =>
    intro b
    by_cases hc : c = '-'
    · subst hc
      cases b with
      | true =>
        have hstep : collapseDashesGo true (List.cons '-' rest) =
            collapseDashesGo true rest := rfl
        rw [hstep]
        exact ih true
      | false =>
        have hstep : collapseDashesGo false (List.cons '-' rest) =
            '-' :: collapseDashesGo true rest := rfl
        rw [hstep]
        apply List.Chain'.cons' (ih true)
        intro y hy
        intro hcon
        apply collapseDashesGo_true_head? rest
        rw [Option.mem_def] at hy
        rw [hy, hcon.2]
    · rw [collapseDashesGo_cons_ne c rest hc b]
      apply List.Chain'.cons' (ih false)
      intro y _ hcon
      exact hc hcon.1

theorem mem_collapseDashesGo :
    ∀ (cs : List Char) (b : Bool) (d : Char),
      d ∈ collapseDashesGo b cs → d = '-' ∨ d ∈ cs := by
  intro cs
  induction cs with
  | nil => intro b d h; simp [collapseDashesGo] at h
  | cons c rest ih =>
    intro b d h
    by_cases hc : c = '-'
    · subst hc
      cases b with
      | true =>
        have hstep : collapseDashesGo true (List.cons '-' rest) =
            collapseDashesGo true rest := rfl
        rw [hstep] at h
        rcases ih true d h with h2 | h2
        · exact Or.inl h2
        · exact Or.inr (List.mem_cons_of_mem _ h2)
      | false =>
        have hstep : collapseDashesGo false (List.cons '-' rest) =
            '-' :: collapseDashesGo true rest := rfl
        rw [hstep] at h
        rcases List.mem_cons.mp h with h2 | h2
        · exact Or.inl h2
        · rcases ih true d h2 with h3 | h3
          · exact Or.inl h3
          · exact Or.inr (List.mem_cons_of_mem _ h3)
    · rw [collapseDashesGo_cons_ne c rest hc b] at h
      rcases List.mem_cons.mp h with h2 | h2
      · exact Or.inr (h2 ▸ List.mem_cons_self c rest)
      · rcases ih false d h2 with h3 | h3
        · exact Or.inl h3
        · exact Or.inr (List.mem_cons_of_mem _ h3)

theorem stripEdgeDashes_subset (cs : List Char) (d : Char)
    (h : d ∈ stripEdgeDashes cs) : d ∈ cs := by
  unfold stripEdgeDashes at h
  rw [List.mem_reverse] at h
  have h2 := (List.dropWhile_sublist _).mem h
  rw [List.mem_reverse] at h2
  exact (List.dropWhile_sublist _).mem h2

/-- Counterexample for C10: the name "a.b" sanitizes to "a.b", whose dot
is a non-alphanumeric, non-hyphen character — only `@` and `/` are treated
as separators, not every non-alphanumeric character. -/
theorem sanitize_counterexample :
    ¬((sanitizeLibraryName "a.b").data.all (fun c => c.isAlphanum || c = '-') = true) := by
  decide

/-- C10 (amended): the persisted key replaces only the separator
characters `@` and `/` by hyphens, strips leading and trailing hyphen
runs, collapses hyphen runs to single hyphens and lower-cases ASCII
letters: the key never contains `@`, `/`, an upper-case ASCII letter, two
adjacent hyphens, or a hyphen at either end, and names differing only in
`@` versus `/` map to the same key; all other characters are preserved,
so other non-alphanumerics may remain in the key. -/
theorem sanitize_name_transform :
    ∀ name : String,
      (∀ c ∈ (sanitizeLibraryName name).data,
        c ≠ '@' ∧ c ≠ '/' ∧ c.isUpper = false) ∧
      List.Chain' (fun a b => ¬(a = '-' ∧ b = '-')) (sanitizeLibraryName name).data ∧
      (sanitizeLibraryName name).data.head? ≠ some '-' ∧
      (sanitizeLibraryName name).data.getLast? ≠ some '-' ∧
      sanitizeLibraryName (String.mk (name.data.map (fun c => if c = '@' then '/' else c))) =
        sanitizeLibraryName name := by
  intro name
  have hdata : (sanitizeLibraryName name).data =
      (collapseDashesGo false (stripEdgeDashes
        (name.data.map (fun c => if c = '@' || c = '/' then '-' else c)))).map
        Char.toLower := rfl
  have hstep1 : ∀ d ∈ name.data.map (fun c => if c = '@' || c = '/' then '-' else c),
      d ≠ '@' ∧ d ≠ '/' := by
    intro d hd
    rcases List.mem_map.mp hd with ⟨e, _, he⟩
    by_cases h1 : e = '@' || e = '/'
    · rw [if_pos h1] at he
      rw [← he]
      exact ⟨by decide, by decide⟩
    · rw [if_neg h1] at he
      rw [Bool.or_eq_true] at h1
      push_neg at h1
      constructor
      · rw [← he]
        intro hcon
        exact h1.1 (by simp [hcon])
      · rw [← he]
        intro hcon
        exact h1.2 (by simp [hcon])
  refine ⟨?_, ?_, ?_, ?_, ?_⟩
  · intro c hc
    rw [hdata] at hc
    rcases List.mem_map.mp hc with ⟨d, hd, he⟩
    have hdok : d ≠ '@' ∧ d ≠ '/' := by
      rcases mem_collapseDashesGo _ false d hd with h2 | h2
      · rw [h2]
        exact ⟨by decide, by decide⟩
      · exact hstep1 d (stripEdgeDashes_subset _ d h2)
    refine ⟨?_, ?_, ?_⟩
    · rw [← he]
      exact toLower_ne_of_ne_low d '@' (by decide) hdok.1
    · rw [← he]
      exact toLower_ne_of_ne_low d '/' (by decide) hdok.2
    · rw [← he]
      exact isUpper_toLower d
  · rw [hdata]
    rw [List.chain'_map]
    apply List.Chain'.imp ?_ (collapseDashesGo_chain _ false)
    intro a b hab hcon
    exact hab ⟨(toLower_eq_dash_iff a).mp hcon.1, (toLower_eq_dash_iff b).mp hcon.2⟩
  · rw [hdata]
    rw [List.head?_map]
    intro hcon
    rcases Option.map_eq_some.mp hcon with ⟨d, hhead, hd2⟩
    have hd : d = '-' := (toLower_eq_dash_iff d).mp hd2
    rw [collapseDashesGo_false_head? _ (stripEdgeDashes_head? _)] at hhead
    rw [hd] at hhead
    exact stripEdgeDashes_head? _ hhead
  · rw [hdata]
    rw [List.getLast?_map]
    intro hcon
    rcases Option.map_eq_some.mp hcon with ⟨d, hlast, hd2⟩
    have hd : d = '-' := (toLower_eq_dash_iff d).mp hd2
    rw [hd] at hlast
    exact stripEdgeDashes_getLast? _ (collapseDashesGo_getLast? _ false hlast)
  · have hmaps : (String.mk (name.data.map (fun c => if c = '@' then '/' else c))).data.map
        (fun c => if c = '@' || c = '/' then '-' else c) =
      name.data.map (fun c => if c = '@' || c = '/' then '-' else c) := by
      show (name.data.map (fun c => if c = '@' then '/' else c)).map
          (fun c => if c = '@' || c = '/' then '-' else c) =
        name.data.map (fun c => if c = '@' || c = '/' then '-' else c)
      rw [List.map_map]
      apply List.map_congr_left
      intro e _
      by_cases h1 : e = '@'
      · simp [h1]
      · by_cases h2 : e = '/'
        · simp [h1, h2]
        · simp [h1, h2]
    show String.mk ((collapseDashesGo false (stripEdgeDashes
        ((String.mk (name.data.map (fun c => if c = '@' then '/' else c))).data.map
          (fun c => if c = '@' || c = '/' then '-' else c)))).map Char.toLower) =
      String.mk ((collapseDashesGo false (stripEdgeDashes
        (name.data.map (fun c => if c = '@' || c = '/' then '-' else c)))).map Char.toLower)
    rw [hmaps]

/-- Witness for C10: a scoped package name maps to its hyphenated
lower-case key, and the at-sign and slash forms agree. -/
theorem sanitize_name_transform_witness :
    sanitizeLibraryName (String.mk ("@scope/Lib".data.map
        (fun c => if c = '@' then '/' else c))) =
      sanitizeLibraryName "@scope/Lib" :=
  (sanitize_name_transform "@scope/Lib").2.2.2.2

end NxConductor
